import Mathlib

/-!
Verification of the move-generation core of the slou chess engine.

Source files embedded here:
* `src/include/move_generator/move_generation.h` — `initializePrecomputedStuff`,
  `pseudolegal_moves`, `generate_moves`, `generate_attacks`.
* `src/include/game.h` — `Game::perft`.
* `src/src/main.cpp` — the eager `initializePrecomputedStuff()` call in `main`.

The Board, Move, MoveList, leaper/slider attack generation and the Zobrist
hasher live in headers that are not part of the given sources; those are
modelled from the specification (each such definition carries a doc comment
starting with `Modelled from the spec:`).

Conventions: a bitboard is a `Nat` below `2 ^ 64`; bit `i` is square `i`,
with square 0 = a1, square 7 = h1, square 56 = a8, square 63 = h8
(rank-major).  White pawns move towards higher indices (+8).
-/

set_option maxRecDepth 100000

/-- All 64 bits set: the universe of squares. -/
def mask64 : Nat := 0xFFFFFFFFFFFFFFFF

/-- Bitboard of file a (squares 0, 8, …, 56). -/
def fileA : Nat := 0x0101010101010101

/-- Bitboard of file h. -/
def fileH : Nat := 0x8080808080808080

/-- Bitboard of files a and b. -/
def fileAB : Nat := 0x0303030303030303

/-- Bitboard of files g and h. -/
def fileGH : Nat := 0xC0C0C0C0C0C0C0C0

/-- Complement of a bitboard inside the 64-square universe. -/
def bbNot (x : Nat) : Nat := mask64 ^^^ x

/-- One step north (towards rank 8). -/
def nortOne (b : Nat) : Nat := (b <<< 8) &&& mask64

/-- One step south. -/
def soutOne (b : Nat) : Nat := b >>> 8

/-- One step east, masking off wrap-around onto file a. -/
def eastOne (b : Nat) : Nat := (b <<< 1) &&& bbNot fileA

/-- One step west, masking off wrap-around onto file h. -/
def westOne (b : Nat) : Nat := (b >>> 1) &&& bbNot fileH

/-- One step north-east. -/
def noEaOne (b : Nat) : Nat := (b <<< 9) &&& bbNot fileA

/-- One step north-west. -/
def noWeOne (b : Nat) : Nat := (b <<< 7) &&& bbNot fileH

/-- One step south-east. -/
def soEaOne (b : Nat) : Nat := (b >>> 7) &&& bbNot fileA

/-- One step south-west. -/
def soWeOne (b : Nat) : Nat := (b >>> 9) &&& bbNot fileH

/-- Modelled from the spec: the two players (`type::Color` of `definitions.h`,
which is not among the given sources). -/
inductive Color : Type where
  | white : Color
  | black : Color
deriving DecidableEq, Repr

/-- Embeds `type::switchColor` as used by `move_generation.h`. -/
def switchColor : Color → Color
  | Color.white => Color.black
  | Color.black => Color.white

/-- Modelled from the spec: the six piece kinds (`type::PieceType` of
`definitions.h`, which is not among the given sources). -/
inductive PieceType : Type where
  | pawn | knight | bishop | rook | queen | king
deriving DecidableEq, Repr

/-- Modelled from the spec: the special-move tag carried by a `Move`
("none, double pawn push, en-passant capture, king-side castle, queen-side
castle"). -/
inductive MoveFlag : Type where
  | quiet | doublePush | enPassant | castleK | castleQ
deriving DecidableEq, Repr

/-- Modelled from the spec: a `Move` value — "origin square, destination
square, moving piece type, optional captured piece type, optional promotion
piece type, and a special-move tag" (`move.h` is not among the given
sources). -/
structure Move : Type where
  orig : Nat
  dest : Nat
  piece : PieceType
  captured : Option PieceType
  promo : Option PieceType
  flag : MoveFlag
deriving DecidableEq, Repr

/-- A placeholder move used only as the default of out-of-range list reads. -/
def dummyMove : Move := ⟨0, 0, PieceType.pawn, none, none, MoveFlag.quiet⟩

/-- Modelled from the spec: the six piece bitboards of one color. -/
structure PieceSet : Type where
  pawn : Nat
  knight : Nat
  bishop : Nat
  rook : Nat
  queen : Nat
  king : Nat
deriving DecidableEq, Repr

/-- Bitboard of one piece kind inside a per-color piece set. -/
def getPiece (ps : PieceSet) : PieceType → Nat
  | PieceType.pawn => ps.pawn
  | PieceType.knight => ps.knight
  | PieceType.bishop => ps.bishop
  | PieceType.rook => ps.rook
  | PieceType.queen => ps.queen
  | PieceType.king => ps.king

/-- Replace the bitboard of one piece kind inside a per-color piece set. -/
def setPiece (ps : PieceSet) (p : PieceType) (v : Nat) : PieceSet :=
  match p with
  | PieceType.pawn => { ps with pawn := v }
  | PieceType.knight => { ps with knight := v }
  | PieceType.bishop => { ps with bishop := v }
  | PieceType.rook => { ps with rook := v }
  | PieceType.queen => { ps with queen := v }
  | PieceType.king => { ps with king := v }

/-- Occupancy of one color: union of its six piece bitboards. -/
def sideOcc (ps : PieceSet) : Nat :=
  ps.pawn ||| ps.knight ||| ps.bishop ||| ps.rook ||| ps.queen ||| ps.king

/-- Modelled from the spec: the undo record pushed by `Board::move` —
"the captured piece (if any), prior castling rights, prior en-passant target,
and prior halfmove clock". -/
structure UndoInfo : Type where
  captured : Option PieceType
  castling : Nat
  ep : Option Nat
  halfmove : Nat
deriving DecidableEq, Repr

/-- Modelled from the spec: the `Board` — six bitboards per color, castling
rights (4 bits: bit 0 = white king side, bit 1 = white queen side, bit 2 =
black king side, bit 3 = black queen side), optional en-passant target
square, halfmove clock, fullmove number, running Zobrist key, and the undo
history stack (`board.h` is not among the given sources). -/
structure Board : Type where
  white : PieceSet
  black : PieceSet
  castling : Nat
  ep : Option Nat
  halfmove : Nat
  fullmove : Nat
  zobrist : Nat
  history : List UndoInfo
deriving DecidableEq, Repr

/-- Piece set of one color. -/
def Board.side (b : Board) : Color → PieceSet
  | Color.white => b.white
  | Color.black => b.black

/-- Replace the piece set of one color. -/
def Board.setSide (b : Board) (c : Color) (ps : PieceSet) : Board :=
  match c with
  | Color.white => { b with white := ps }
  | Color.black => { b with black := ps }

/-- Embeds `Board::getKing(color)`. -/
def Board.getKing (b : Board) (c : Color) : Nat := (b.side c).king

/-- Embeds `Board::getPawns(color)`. -/
def Board.getPawns (b : Board) (c : Color) : Nat := (b.side c).pawn

/-- Embeds `Board::getKnights(color)`. -/
def Board.getKnights (b : Board) (c : Color) : Nat := (b.side c).knight

/-- Embeds `Board::getBishops(color)`. -/
def Board.getBishops (b : Board) (c : Color) : Nat := (b.side c).bishop

/-- Embeds `Board::getRooks(color)`. -/
def Board.getRooks (b : Board) (c : Color) : Nat := (b.side c).rook

/-- Embeds `Board::getQueens(color)`. -/
def Board.getQueens (b : Board) (c : Color) : Nat := (b.side c).queen

/-- Embeds `Board::getOccupancy()`: union of both colors. -/
def Board.getOccupancy (b : Board) : Nat := sideOcc b.white ||| sideOcc b.black

/-- Embeds `Board::isCheck(color, enemy_attacks)`: does the enemy attack set
intersect this color's king bitboard? -/
def Board.isCheck (b : Board) (c : Color) (attacks : Nat) : Bool :=
  b.getKing c &&& attacks ≠ 0

/-- Modelled from the spec: the first piece kind of `ps` whose bitboard has
square `sq` set (used by the generator to record the captured piece type). -/
def pieceAtSide (ps : PieceSet) (sq : Nat) : Option PieceType :=
  if ps.pawn.testBit sq then some PieceType.pawn
  else if ps.knight.testBit sq then some PieceType.knight
  else if ps.bishop.testBit sq then some PieceType.bishop
  else if ps.rook.testBit sq then some PieceType.rook
  else if ps.queen.testBit sq then some PieceType.queen
  else if ps.king.testBit sq then some PieceType.king
  else none

/-! ### Zobrist hashing

Modelled from the spec (`zobrist.h` is not among the given sources): a table
of deterministic pseudorandom 64-bit keys — one per (piece kind, color,
square), one per castling-rights combination, one per en-passant file, one
for side-to-move — XORed incrementally by `Board::move` / `Board::undo`. -/

/-- Modelled from the spec: a deterministic 64-bit mixer standing for the
seeded pseudorandom key table ("deterministic seed recommended"). -/
def zMix (n : Nat) : Nat :=
  let x := (n + 0x9E3779B97F4A7C15) &&& mask64
  let x := ((x ^^^ (x >>> 30)) * 0xBF58476D1CE4E5B9) &&& mask64
  let x := ((x ^^^ (x >>> 27)) * 0x94D049BB133111EB) &&& mask64
  x ^^^ (x >>> 31)

/-- Index of a (color, piece) plane, 0–11. -/
def planeIndex (c : Color) (p : PieceType) : Nat :=
  (match c with | Color.white => 0 | Color.black => 6) +
  (match p with
   | PieceType.pawn => 0 | PieceType.knight => 1 | PieceType.bishop => 2
   | PieceType.rook => 3 | PieceType.queen => 4 | PieceType.king => 5)

/-- Modelled from the spec: "one key per (piece kind, color, square)". -/
def pieceKey (c : Color) (p : PieceType) (sq : Nat) : Nat :=
  zMix (planeIndex c p * 64 + sq)

/-- Modelled from the spec: "one key per castling-rights combination". -/
def castleKey (cr : Nat) : Nat := zMix (768 + cr)

/-- Modelled from the spec: "one key per en-passant file" (0 when there is no
en-passant target). -/
def epKey : Option Nat → Nat
  | none => 0
  | some e => zMix (800 + e % 8)

/-- Modelled from the spec: the single side-to-move key, XORed on every
move/undo. -/
def sideKey : Nat := zMix 900

/-! ### Board mutation: `Board::move` and `Board::undo`

Modelled from the spec (`board.h` is not among the given sources), §4.4:
`move(m)` clears the origin bit, sets the destination bit (or the promotion
piece's bit), removes the captured piece (en passant removes a pawn that is
not on the destination square), relocates the rook on castling, updates
castling rights, the en-passant target, the halfmove/fullmove counters and
the Zobrist key, and pushes an undo record; `undo(m)` pops the record and
exactly reverses every field. -/

/-- Square from which a capture removes the enemy piece: the destination,
except for en passant where the captured pawn sits behind the target square. -/
def capSqOf (c : Color) (m : Move) : Nat :=
  if m.flag = MoveFlag.enPassant then
    match c with
    | Color.white => m.dest - 8
    | Color.black => m.dest + 8
  else m.dest

/-- The piece kind standing on the destination after the move: the promotion
piece if any, else the moving piece. -/
def targetPiece (m : Move) : PieceType := m.promo.getD m.piece

/-- Castling-rights mask cleared by any move touching square `s` (rights are
lost when the king or a rook moves or a rook is captured). -/
def castleMaskOf (s : Nat) : Nat :=
  if s = 4 then 12 else if s = 7 then 14 else if s = 0 then 13
  else if s = 60 then 3 else if s = 63 then 11 else if s = 56 then 7 else 15

/-- Castling rights after a move from `m.orig` to `m.dest`. -/
def castleUpdate (cr : Nat) (m : Move) : Nat :=
  cr &&& castleMaskOf m.orig &&& castleMaskOf m.dest

/-- En-passant target created by a move: the square passed over by a double
pawn push, none otherwise. -/
def epTargetOf (m : Move) : Option Nat :=
  if m.flag = MoveFlag.doublePush then some ((m.orig + m.dest) / 2) else none

/-- Castling rook relocation squares (origin, destination) for a castle move
of color `c`, if the move is a castle. -/
def rookCastleSquares (c : Color) (m : Move) : Option (Nat × Nat) :=
  match m.flag, c with
  | MoveFlag.castleK, Color.white => some (7, 5)
  | MoveFlag.castleQ, Color.white => some (0, 3)
  | MoveFlag.castleK, Color.black => some (63, 61)
  | MoveFlag.castleQ, Color.black => some (56, 59)
  | _, _ => none

/-- Zobrist delta of a move: XOR of the component keys that change.  The same
delta is XORed in by `move` and XORed out by `undo`. -/
def zDelta (c : Color) (m : Move) (crOld crNew : Nat)
    (epOld epNew : Option Nat) : Nat :=
  pieceKey c m.piece m.orig ^^^ pieceKey c (targetPiece m) m.dest ^^^
  (match m.captured with
   | none => 0
   | some q => pieceKey (switchColor c) q (capSqOf c m)) ^^^
  (match rookCastleSquares c m with
   | none => 0
   | some (rf, rt) => pieceKey c PieceType.rook rf ^^^ pieceKey c PieceType.rook rt) ^^^
  castleKey crOld ^^^ castleKey crNew ^^^ epKey epOld ^^^ epKey epNew ^^^ sideKey

/-- The mover's piece-set update of `Board::move`: clear the origin bit, set
the destination bit on the arriving piece's plane, and relocate the rook on a
castle. -/
def movePieces (c : Color) (m : Move) (own : PieceSet) : PieceSet :=
  let own1 := setPiece own m.piece
    (getPiece own m.piece &&& bbNot ((1 : Nat) <<< m.orig))
  let own2 := setPiece own1 (targetPiece m)
    (getPiece own1 (targetPiece m) ||| ((1 : Nat) <<< m.dest))
  match rookCastleSquares c m with
  | none => own2
  | some (rf, rt) =>
      setPiece own2 PieceType.rook
        ((getPiece own2 PieceType.rook &&& bbNot ((1 : Nat) <<< rf)) |||
          ((1 : Nat) <<< rt))

/-- The mover's piece-set update of `Board::undo`: the exact inverse sequence
of `movePieces`. -/
def undoPieces (c : Color) (m : Move) (own : PieceSet) : PieceSet :=
  let own1 :=
    match rookCastleSquares c m with
    | none => own
    | some (rf, rt) =>
        setPiece own PieceType.rook
          ((getPiece own PieceType.rook &&& bbNot ((1 : Nat) <<< rt)) |||
            ((1 : Nat) <<< rf))
  let own2 := setPiece own1 (targetPiece m)
    (getPiece own1 (targetPiece m) &&& bbNot ((1 : Nat) <<< m.dest))
  setPiece own2 m.piece (getPiece own2 m.piece ||| ((1 : Nat) <<< m.orig))

/-- The captured side's piece-set update of `Board::move`: remove the captured
piece from its capture square (which for en passant is not the destination). -/
def capturePieces (c : Color) (m : Move) (cap : Option PieceType)
    (enemy : PieceSet) : PieceSet :=
  match cap with
  | none => enemy
  | some q =>
      setPiece enemy q
        (getPiece enemy q &&& bbNot ((1 : Nat) <<< capSqOf c m))

/-- The captured side's piece-set update of `Board::undo`: put the captured
piece back on its capture square. -/
def restorePieces (c : Color) (m : Move) (cap : Option PieceType)
    (enemy : PieceSet) : PieceSet :=
  match cap with
  | none => enemy
  | some q =>
      setPiece enemy q
        (getPiece enemy q ||| ((1 : Nat) <<< capSqOf c m))

/-- Modelled from the spec: `Board::move(m)` for the side `c` (§4.4). -/
def Board.move (b : Board) (c : Color) (m : Move) : Board :=
  let own := movePieces c m (b.side c)
  let enemy := capturePieces c m m.captured (b.side (switchColor c))
  let crNew := castleUpdate b.castling m
  let epNew := epTargetOf m
  let b2 := (b.setSide c own).setSide (switchColor c) enemy
  { b2 with
    castling := crNew
    ep := epNew
    halfmove :=
      if m.piece = PieceType.pawn ∨ m.captured ≠ none then 0 else b.halfmove + 1
    fullmove := match c with | Color.white => b.fullmove | Color.black => b.fullmove + 1
    zobrist := b.zobrist ^^^ zDelta c m b.castling crNew b.ep epNew
    history :=
      { captured := m.captured, castling := b.castling, ep := b.ep,
        halfmove := b.halfmove } :: b.history }

/-- Modelled from the spec: `Board::undo(m)` for the side `c` (§4.4): pops the
undo record and exactly reverses every field updated by `move`.  Calling it
with an empty history is a precondition violation; the board is then returned
unchanged. -/
def Board.undo (b : Board) (c : Color) (m : Move) : Board :=
  match b.history with
  | [] => b
  | u :: rest =>
    let own := undoPieces c m (b.side c)
    let enemy := restorePieces c m u.captured (b.side (switchColor c))
    let b2 := (b.setSide c own).setSide (switchColor c) enemy
    { b2 with
      castling := u.castling
      ep := u.ep
      halfmove := u.halfmove
      fullmove := match c with | Color.white => b.fullmove | Color.black => b.fullmove - 1
      zobrist :=
        b.zobrist ^^^ zDelta c m u.castling (castleUpdate u.castling m) u.ep (epTargetOf m)
      history := rest }

/-! ### Leaper and slider attack masks

Modelled from the spec (`leapers/leapers.h` and `sliders/sliders.h` are not
among the given sources): leaper attacks are fixed offset sets; slider
attacks extend along each ray up to and including the first blocker.  The
whole-bitboard shift/fill formulation below computes, for every piece in the
input bitboard at once, exactly the union of the per-square attack sets the
spec describes. -/

/-- Modelled from the spec: `leapers::generatePawnMask<color>` — squares
attacked by the pawns of `c` (diagonal steps only). -/
def generatePawnMask (c : Color) (pawns : Nat) : Nat :=
  match c with
  | Color.white => noEaOne pawns ||| noWeOne pawns
  | Color.black => soEaOne pawns ||| soWeOne pawns

/-- Modelled from the spec: `leapers::generateKnightMask` — squares attacked
by the knights in the input bitboard. -/
def generateKnightMask (b : Nat) : Nat :=
  (((b <<< 17) &&& bbNot fileA) ||| ((b <<< 15) &&& bbNot fileH) |||
   ((b <<< 10) &&& bbNot fileAB) ||| ((b <<< 6) &&& bbNot fileGH) |||
   ((b >>> 17) &&& bbNot fileH) ||| ((b >>> 15) &&& bbNot fileA) |||
   ((b >>> 10) &&& bbNot fileGH) ||| ((b >>> 6) &&& bbNot fileAB)) &&& mask64

/-- Modelled from the spec: `leapers::generateKingMask` — squares attacked by
the king(s) in the input bitboard. -/
def generateKingMask (b : Nat) : Nat :=
  nortOne b ||| soutOne b ||| eastOne b ||| westOne b |||
  noEaOne b ||| noWeOne b ||| soEaOne b ||| soWeOne b

/-- Occluded fill: starting squares plus empty squares reachable by repeated
`step`, used to build slider rays ("stopping at the first occupied square in
each direction, including it"). -/
def occludedFill (b empty : Nat) (step : Nat → Nat) : Nat :=
  let g := b
  let g := g ||| (empty &&& step g)
  let g := g ||| (empty &&& step g)
  let g := g ||| (empty &&& step g)
  let g := g ||| (empty &&& step g)
  let g := g ||| (empty &&& step g)
  let g := g ||| (empty &&& step g)
  g

/-- Attack set in one ray direction: one more step past the occluded fill, so
the first blocker is included and squares beyond it are not. -/
def rayAttacks (b occ : Nat) (step : Nat → Nat) : Nat :=
  step (occludedFill b (mask64 ^^^ occ) step)

/-- Modelled from the spec: rook attacks for every rook in `b` under
occupancy `occ` (four orthogonal rays). -/
def rookAttacks (b occ : Nat) : Nat :=
  rayAttacks b occ nortOne ||| rayAttacks b occ soutOne |||
  rayAttacks b occ eastOne ||| rayAttacks b occ westOne

/-- Modelled from the spec: bishop attacks for every bishop in `b` under
occupancy `occ` (four diagonal rays). -/
def bishopAttacks (b occ : Nat) : Nat :=
  rayAttacks b occ noEaOne ||| rayAttacks b occ noWeOne |||
  rayAttacks b occ soEaOne ||| rayAttacks b occ soWeOne

/-- Modelled from the spec: `sliders::getBitboard<piece>` — attack set of all
pieces of the given slider kind in `b`; "queen attacks = bishop attacks ∪
rook attacks".  Non-slider kinds attack nothing through this interface. -/
def slidersGetBitboard (p : PieceType) (b occ : Nat) : Nat :=
  match p with
  | PieceType.bishop => bishopAttacks b occ
  | PieceType.rook => rookAttacks b occ
  | PieceType.queen => bishopAttacks b occ ||| rookAttacks b occ
  | _ => 0

/-- Embeds `generate_attacks<color>` of `move_generation.h` (lines 110–127):
the OR of pawn, knight, king, bishop, rook and queen attacks of color `c`
under the board's occupancy. -/
def generate_attacks (c : Color) (b : Board) : Nat :=
  let occupancy := b.getOccupancy
  generatePawnMask c (b.getPawns c) |||
  generateKnightMask (b.getKnights c) |||
  generateKingMask (b.getKing c) |||
  slidersGetBitboard PieceType.bishop (b.getBishops c) occupancy |||
  slidersGetBitboard PieceType.rook (b.getRooks c) occupancy |||
  slidersGetBitboard PieceType.queen (b.getQueens c) occupancy

/-! ### Pseudolegal move list generation

Modelled from the spec: `leapers::pawn`, `leapers::knight`, `leapers::king`
and `sliders::generateMoves` append to the caller's `MoveList`.  A `MoveList`
is modelled as a `List Move` (append at the end, `size` = length, O(1)
swap-with-last removal). -/

/-- The 64 square indices. -/
def allSquares : List Nat := List.range 64

/-- Square indices of the set bits of a bitboard. -/
def bitsOf (bb : Nat) : List Nat := allSquares.filter (fun s => bb.testBit s)

/-- The four promotion moves from `s` to `t` (queen, rook, bishop, knight). -/
def promoMoves (s t : Nat) (cap : Option PieceType) : List Move :=
  [⟨s, t, PieceType.pawn, cap, some PieceType.queen, MoveFlag.quiet⟩,
   ⟨s, t, PieceType.pawn, cap, some PieceType.rook, MoveFlag.quiet⟩,
   ⟨s, t, PieceType.pawn, cap, some PieceType.bishop, MoveFlag.quiet⟩,
   ⟨s, t, PieceType.pawn, cap, some PieceType.knight, MoveFlag.quiet⟩]

/-- Modelled from the spec: pawn moves of one pawn of color `c` on square
`s` — pushes, double pushes, captures, promotions and en passant. -/
def pawnMovesFrom (c : Color) (b : Board) (s : Nat) : List Move :=
  let occ := b.getOccupancy
  let enemy := b.side (switchColor c)
  let enemyOcc := sideOcc enemy
  match c with
  | Color.white =>
    let pushes :=
      if ¬ occ.testBit (s + 8) then
        (if s / 8 = 6 then promoMoves s (s + 8) none
         else [⟨s, s + 8, PieceType.pawn, none, none, MoveFlag.quiet⟩] ++
           (if s / 8 = 1 ∧ ¬ occ.testBit (s + 16) then
             [⟨s, s + 16, PieceType.pawn, none, none, MoveFlag.doublePush⟩]
            else []))
      else []
    let capW :=
      if s % 8 ≠ 0 ∧ enemyOcc.testBit (s + 7) then
        (if s / 8 = 6 then promoMoves s (s + 7) (pieceAtSide enemy (s + 7))
         else [⟨s, s + 7, PieceType.pawn, pieceAtSide enemy (s + 7), none, MoveFlag.quiet⟩])
      else []
    let capE :=
      if s % 8 ≠ 7 ∧ enemyOcc.testBit (s + 9) then
        (if s / 8 = 6 then promoMoves s (s + 9) (pieceAtSide enemy (s + 9))
         else [⟨s, s + 9, PieceType.pawn, pieceAtSide enemy (s + 9), none, MoveFlag.quiet⟩])
      else []
    let epMoves :=
      match b.ep with
      | some e =>
        if (s % 8 ≠ 0 ∧ e = s + 7) ∨ (s % 8 ≠ 7 ∧ e = s + 9) then
          [⟨s, e, PieceType.pawn, some PieceType.pawn, none, MoveFlag.enPassant⟩]
        else []
      | none => []
    pushes ++ capW ++ capE ++ epMoves
  | Color.black =>
    let pushes :=
      if s ≥ 8 ∧ ¬ occ.testBit (s - 8) then
        (if s / 8 = 1 then promoMoves s (s - 8) none
         else [⟨s, s - 8, PieceType.pawn, none, none, MoveFlag.quiet⟩] ++
           (if s / 8 = 6 ∧ ¬ occ.testBit (s - 16) then
             [⟨s, s - 16, PieceType.pawn, none, none, MoveFlag.doublePush⟩]
            else []))
      else []
    let capW :=
      if s % 8 ≠ 0 ∧ s ≥ 9 ∧ enemyOcc.testBit (s - 9) then
        (if s / 8 = 1 then promoMoves s (s - 9) (pieceAtSide enemy (s - 9))
         else [⟨s, s - 9, PieceType.pawn, pieceAtSide enemy (s - 9), none, MoveFlag.quiet⟩])
      else []
    let capE :=
      if s % 8 ≠ 7 ∧ s ≥ 7 ∧ enemyOcc.testBit (s - 7) then
        (if s / 8 = 1 then promoMoves s (s - 7) (pieceAtSide enemy (s - 7))
         else [⟨s, s - 7, PieceType.pawn, pieceAtSide enemy (s - 7), none, MoveFlag.quiet⟩])
      else []
    let epMoves :=
      match b.ep with
      | some e =>
        if (s % 8 ≠ 0 ∧ s ≥ 9 ∧ e = s - 9) ∨ (s % 8 ≠ 7 ∧ s ≥ 7 ∧ e = s - 7) then
          [⟨s, e, PieceType.pawn, some PieceType.pawn, none, MoveFlag.enPassant⟩]
        else []
      | none => []
    pushes ++ capW ++ capE ++ epMoves

/-- Modelled from the spec: `leapers::pawn<color>` — pawn moves appended for
every pawn of color `c`. -/
def pawnMoves (c : Color) (b : Board) : List Move :=
  (bitsOf (b.getPawns c)).flatMap (pawnMovesFrom c b)

/-- Moves of a piece kind from square `s` to every square of `targets`,
recording any captured enemy piece kind. -/
def movesTo (p : PieceType) (enemy : PieceSet) (s : Nat) (targets : Nat) : List Move :=
  (bitsOf targets).map (fun t => ⟨s, t, p, pieceAtSide enemy t, none, MoveFlag.quiet⟩)

/-- Modelled from the spec: `leapers::knight<color>` — knight moves to
squares not occupied by own pieces. -/
def knightMoves (c : Color) (b : Board) : List Move :=
  let ownOcc := sideOcc (b.side c)
  let enemy := b.side (switchColor c)
  (bitsOf (b.getKnights c)).flatMap (fun s =>
    movesTo PieceType.knight enemy s (generateKnightMask ((1 : Nat) <<< s) &&& bbNot ownOcc))

/-- Modelled from the spec: castling moves of color `c` — generated when the
corresponding right is set, the squares between king and rook are empty, and
neither the king's square nor the squares it crosses are attacked by the
enemy. -/
def castleMoves (c : Color) (b : Board) (enemyAttacks : Nat) : List Move :=
  let occ := b.getOccupancy
  match c with
  | Color.white =>
    (if b.castling &&& 1 ≠ 0 ∧ ¬ occ.testBit 5 ∧ ¬ occ.testBit 6 ∧
        ¬ enemyAttacks.testBit 4 ∧ ¬ enemyAttacks.testBit 5 ∧ ¬ enemyAttacks.testBit 6 then
      [⟨4, 6, PieceType.king, none, none, MoveFlag.castleK⟩] else []) ++
    (if b.castling &&& 2 ≠ 0 ∧ ¬ occ.testBit 1 ∧ ¬ occ.testBit 2 ∧ ¬ occ.testBit 3 ∧
        ¬ enemyAttacks.testBit 4 ∧ ¬ enemyAttacks.testBit 3 ∧ ¬ enemyAttacks.testBit 2 then
      [⟨4, 2, PieceType.king, none, none, MoveFlag.castleQ⟩] else [])
  | Color.black =>
    (if b.castling &&& 4 ≠ 0 ∧ ¬ occ.testBit 61 ∧ ¬ occ.testBit 62 ∧
        ¬ enemyAttacks.testBit 60 ∧ ¬ enemyAttacks.testBit 61 ∧ ¬ enemyAttacks.testBit 62 then
      [⟨60, 62, PieceType.king, none, none, MoveFlag.castleK⟩] else []) ++
    (if b.castling &&& 8 ≠ 0 ∧ ¬ occ.testBit 57 ∧ ¬ occ.testBit 58 ∧ ¬ occ.testBit 59 ∧
        ¬ enemyAttacks.testBit 60 ∧ ¬ enemyAttacks.testBit 59 ∧ ¬ enemyAttacks.testBit 58 then
      [⟨60, 58, PieceType.king, none, none, MoveFlag.castleQ⟩] else [])

/-- Modelled from the spec: `leapers::king<color>` — king steps to squares
neither occupied by own pieces nor attacked by the enemy (the eager king
safety filter of §4.5), plus castling. -/
def kingMoves (c : Color) (b : Board) (enemyAttacks : Nat) : List Move :=
  let ownOcc := sideOcc (b.side c)
  let enemy := b.side (switchColor c)
  (bitsOf (b.getKing c)).flatMap (fun s =>
    movesTo PieceType.king enemy s
      (generateKingMask ((1 : Nat) <<< s) &&& bbNot enemyAttacks &&& bbNot ownOcc)) ++
  castleMoves c b enemyAttacks

/-- Modelled from the spec: `sliders::generateMoves<piece, color>` — slider
moves along blocked rays, to squares not occupied by own pieces. -/
def sliderMoves (p : PieceType) (c : Color) (b : Board) : List Move :=
  let occ := b.getOccupancy
  let ownOcc := sideOcc (b.side c)
  let enemy := b.side (switchColor c)
  (bitsOf (getPiece (b.side c) p)).flatMap (fun s =>
    movesTo p enemy s (slidersGetBitboard p ((1 : Nat) <<< s) occ &&& bbNot ownOcc))

/-- Embeds `pseudolegal_moves<color>` of `move_generation.h` (lines 45–71):
returns 0 if the side to move has no king; otherwise appends pawn, knight,
king (with eager safety filtering against the enemy attack set) and slider
moves to the caller's list and returns the list's resulting size.  The
returned pair is (return value, resulting list). -/
def pseudolegal_moves (c : Color) (move_list : List Move) (b : Board) :
    Nat × List Move :=
  if b.getKing c = 0 then (0, move_list)
  else
    let enemy_attacks := generate_attacks (switchColor c) b
    let l := move_list ++ pawnMoves c b ++ knightMoves c b ++
      kingMoves c b enemy_attacks ++
      sliderMoves PieceType.bishop c b ++ sliderMoves PieceType.rook c b ++
      sliderMoves PieceType.queen c b
    (l.length, l)

/-- Modelled from the spec: `MoveList::remove(i)` — O(1) removal by
swap-with-last ("order need not be preserved during legality filtering"). -/
def removeSwap (l : List Move) (i : Nat) : List Move :=
  (l.set i (l.getD (l.length - 1) dummyMove)).dropLast

/-- Embeds the legality-filter loop of `generate_moves` (lines 84–97): apply
the move at index `i`, recompute the enemy attack set, drop the move if the
own king is then in check, undo, and continue.  `fuel` bounds the iteration
count (any value above the list length is enough). -/
def filterLoop (c : Color) : Nat → Nat → List Move → Board → List Move × Board
  | 0, _, l, b => (l, b)
  | fuel + 1, i, l, b =>
    if i < l.length then
      let m := l.getD i dummyMove
      let b1 := b.move c m
      let enemy_attacks := generate_attacks (switchColor c) b1
      if b1.isCheck c enemy_attacks then
        filterLoop c fuel i (removeSwap l i) (b1.undo c m)
      else
        filterLoop c fuel (i + 1) l (b1.undo c m)
    else (l, b)

/-- Embeds `generate_moves<color>` of `move_generation.h` (lines 73–101):
generate pseudolegal moves into the caller's list, return 0 if the list is
empty, otherwise filter it with try-then-revert legality checks and return
the resulting size.  The returned triple is (return value, resulting list,
resulting board). -/
def generate_moves (c : Color) (move_list : List Move) (b : Board) :
    Nat × List Move × Board :=
  let l1 := (pseudolegal_moves c move_list b).2
  if l1.length = 0 then (0, l1, b)
  else
    let r := filterLoop c (l1.length + 1) 0 l1 b
    (r.1.length, r.1, r.2)

/-- Embeds `Game::perft<color>` of `game.h` (lines 35–64): generate the legal
moves into a fresh list; at depth ≤ 1 return the list's size; otherwise, for
each move, apply it, recurse at depth − 1 with the switched color, accumulate
and undo.  The board is threaded explicitly; the returned pair is (node
count, resulting board).  The C++ depth is an `int` whose values ≤ 1 all hit
the base case; the model uses `Nat` depth, whose values 0 and 1 hit it. -/
def perft (c : Color) : Nat → Board → Nat × Board
  | 0, b =>
    let r := generate_moves c [] b
    (r.2.1.length, r.2.2)
  | 1, b =>
    let r := generate_moves c [] b
    (r.2.1.length, r.2.2)
  | d + 2, b =>
    let r := generate_moves c [] b
    r.2.1.foldl
      (fun acc m =>
        let b1 := acc.2.move c m
        let rec1 := perft (switchColor c) (d + 1) b1
        (acc.1 + rec1.1, rec1.2.undo c m))
      (0, r.2.2)

/-- The legality test applied by the filter loop to a single move: apply it
to `b` and test whether the mover's king then intersects the enemy attack
set (`move_generation.h` lines 85–89). -/
def inCheckAfter (c : Color) (b : Board) (m : Move) : Bool :=
  let b1 := b.move c m
  b1.isCheck c (generate_attacks (switchColor c) b1)

/-! ### Well-formedness, move facts and coherence

These predicates are the glue of the verification: `WF c b` captures the
board invariants of a reachable position with `c` to move, `MoveFacts`
captures what the generator guarantees about every pseudolegal move it
emits, and `Coherent` is exactly what the round-trip proof of
`Board.move`/`Board.undo` consumes. -/

/-- Bitboard of the first and eighth ranks, where no pawn can stand. -/
def rimMask : Nat := 0xFF000000000000FF

/-- All six bitboards of a piece set fit in 64 bits. -/
def bbBound (ps : PieceSet) : Prop :=
  ps.pawn < 2 ^ 64 ∧ ps.knight < 2 ^ 64 ∧ ps.bishop < 2 ^ 64 ∧
  ps.rook < 2 ^ 64 ∧ ps.queen < 2 ^ 64 ∧ ps.king < 2 ^ 64

/-- Validity of the en-passant target from the point of view of the side `c`
to move: the enemy pawn that just double-pushed stands behind the target
square, and the target square itself is empty. -/
def epOk (c : Color) (b : Board) : Prop :=
  b.ep.all (fun e =>
    match c with
    | Color.white =>
        decide (e / 8 = 5) && b.black.pawn.testBit (e - 8) &&
        !(b.getOccupancy.testBit e)
    | Color.black =>
        decide (e / 8 = 2) && b.white.pawn.testBit (e + 8) &&
        !(b.getOccupancy.testBit e)) = true

/-- A surviving castling right implies king and rook on their home squares. -/
def castleOk (b : Board) : Prop :=
  (b.castling.testBit 0 = true →
    b.white.king.testBit 4 = true ∧ b.white.rook.testBit 7 = true) ∧
  (b.castling.testBit 1 = true →
    b.white.king.testBit 4 = true ∧ b.white.rook.testBit 0 = true) ∧
  (b.castling.testBit 2 = true →
    b.black.king.testBit 60 = true ∧ b.black.rook.testBit 63 = true) ∧
  (b.castling.testBit 3 = true →
    b.black.king.testBit 60 = true ∧ b.black.rook.testBit 56 = true)

/-- Pairwise disjointness of the six piece planes of one color: a square
holds at most one piece of that color. -/
def planesDisjoint (ps : PieceSet) : Prop :=
  ps.pawn &&& ps.knight = 0 ∧ ps.pawn &&& ps.bishop = 0 ∧
  ps.pawn &&& ps.rook = 0 ∧ ps.pawn &&& ps.queen = 0 ∧
  ps.pawn &&& ps.king = 0 ∧ ps.knight &&& ps.bishop = 0 ∧
  ps.knight &&& ps.rook = 0 ∧ ps.knight &&& ps.queen = 0 ∧
  ps.knight &&& ps.king = 0 ∧ ps.bishop &&& ps.rook = 0 ∧
  ps.bishop &&& ps.queen = 0 ∧ ps.bishop &&& ps.king = 0 ∧
  ps.rook &&& ps.queen = 0 ∧ ps.rook &&& ps.king = 0 ∧
  ps.queen &&& ps.king = 0

/-- Board invariants holding in every reachable position with `c` to move:
bounded bitboards, the two colors occupy disjoint squares, no pawns on the
rim ranks, castling rights imply home squares, and a valid en-passant
target. -/
def WF (c : Color) (b : Board) : Prop :=
  bbBound b.white ∧ bbBound b.black ∧
  sideOcc b.white &&& sideOcc b.black = 0 ∧
  b.white.pawn &&& rimMask = 0 ∧ b.black.pawn &&& rimMask = 0 ∧
  castleOk b ∧ epOk c b ∧
  planesDisjoint b.white ∧ planesDisjoint b.black

/-- Geometry of a castle move of color `c` as the generator emits it:
matching right set, king path empty, and the standard origin/destination
squares. -/
def castleFacts (c : Color) (b : Board) (m : Move) : Prop :=
  match m.flag, c with
  | MoveFlag.castleK, Color.white =>
      b.castling &&& 1 ≠ 0 ∧ m.orig = 4 ∧ m.dest = 6 ∧
      b.getOccupancy.testBit 5 = false ∧ b.getOccupancy.testBit 6 = false
  | MoveFlag.castleQ, Color.white =>
      b.castling &&& 2 ≠ 0 ∧ m.orig = 4 ∧ m.dest = 2 ∧
      b.getOccupancy.testBit 1 = false ∧ b.getOccupancy.testBit 2 = false ∧
      b.getOccupancy.testBit 3 = false
  | MoveFlag.castleK, Color.black =>
      b.castling &&& 4 ≠ 0 ∧ m.orig = 60 ∧ m.dest = 62 ∧
      b.getOccupancy.testBit 61 = false ∧ b.getOccupancy.testBit 62 = false
  | MoveFlag.castleQ, Color.black =>
      b.castling &&& 8 ≠ 0 ∧ m.orig = 60 ∧ m.dest = 58 ∧
      b.getOccupancy.testBit 57 = false ∧ b.getOccupancy.testBit 58 = false ∧
      b.getOccupancy.testBit 59 = false
  | _, _ => True

/-- Everything the generator guarantees about a pseudolegal move it emits for
color `c` on board `b`.  These facts are independent of the board invariants;
together with `WF` they imply `Coherent`. -/
def MoveFacts (c : Color) (b : Board) (m : Move) : Prop :=
  m.orig < 64 ∧ m.dest < 64 ∧ m.orig ≠ m.dest ∧
  (getPiece (b.side c) m.piece).testBit m.orig = true ∧
  (m.flag = MoveFlag.enPassant →
    b.ep = some m.dest ∧ m.captured = some PieceType.pawn ∧
    m.piece = PieceType.pawn ∧ m.promo = none) ∧
  (m.flag ≠ MoveFlag.enPassant →
    (match m.captured with
     | none => b.getOccupancy.testBit m.dest = false
     | some q =>
        (getPiece (b.side (switchColor c)) q).testBit m.dest = true)) ∧
  ((m.flag = MoveFlag.castleK ∨ m.flag = MoveFlag.castleQ) →
    m.piece = PieceType.king ∧ m.promo = none ∧ m.captured = none) ∧
  castleFacts c b m ∧
  (∀ p, m.promo = some p → p ≠ PieceType.pawn ∧ m.piece = PieceType.pawn) ∧
  (m.piece = PieceType.pawn ∧ m.promo = none ∧ m.flag ≠ MoveFlag.enPassant →
    8 ≤ m.dest ∧ m.dest / 8 ≠ 7) ∧
  (m.flag = MoveFlag.doublePush →
    m.piece = PieceType.pawn ∧ m.promo = none ∧ m.captured = none ∧
    (match c with
     | Color.white =>
        m.orig / 8 = 1 ∧ m.dest = m.orig + 16 ∧
        b.getOccupancy.testBit (m.orig + 8) = false
     | Color.black =>
        m.orig / 8 = 6 ∧ 16 ≤ m.orig ∧ m.dest = m.orig - 16 ∧
        b.getOccupancy.testBit (m.orig - 8) = false))

/-- Coherence of the castling rook relocation with the rook bitboard. -/
def rookCoh (c : Color) (m : Move) (b : Board) : Prop :=
  ((rookCastleSquares c m).all (fun rs =>
    decide (rs.1 < 64) && decide (rs.2 < 64) && decide (rs.1 ≠ rs.2) &&
    decide (getPiece (b.side c) PieceType.rook < 2 ^ 64) &&
    (getPiece (b.side c) PieceType.rook).testBit rs.1 &&
    !((getPiece (b.side c) PieceType.rook).testBit rs.2)) = true)

/-- Exactly the hypotheses under which `Board.undo` inverts `Board.move`
bit for bit: the moved piece is on the origin, the destination is free for
the arriving piece, any captured piece is present on its capture square, and
a castle relocates a rook that is present. -/
def Coherent (c : Color) (m : Move) (b : Board) : Prop :=
  m.orig < 64 ∧ m.dest < 64 ∧ m.orig ≠ m.dest ∧
  getPiece (b.side c) m.piece < 2 ^ 64 ∧
  getPiece (b.side c) (targetPiece m) < 2 ^ 64 ∧
  (getPiece (b.side c) m.piece).testBit m.orig = true ∧
  (getPiece (b.side c) (targetPiece m)).testBit m.dest = false ∧
  (m.captured.all (fun q =>
    decide (capSqOf c m < 64) &&
    (getPiece (b.side (switchColor c)) q).testBit (capSqOf c m) &&
    decide (getPiece (b.side (switchColor c)) q < 2 ^ 64)) = true) ∧
  ((m.flag = MoveFlag.castleK ∨ m.flag = MoveFlag.castleQ) →
    m.piece = PieceType.king ∧ m.promo = none ∧ m.captured = none) ∧
  rookCoh c m b

/-! ### The lazy-initialization state machine

Embeds the `static bool initialized_stuff` flag of `move_generation.h`
(line 28) and the call paths that run `initializePrecomputedStuff`: the
eager call in `main` (`main.cpp` line 29, which does not set the flag) and
the guarded call in `pseudolegal_moves` (lines 50–53).  The attack and
Zobrist tables themselves are pure values in this model, so the observable
effect of the routine is counted. -/

/-- The process-wide initialization state: the guard flag and how many times
`initializePrecomputedStuff` has run. -/
structure InitState : Type where
  initialized_stuff : Bool
  initCount : Nat
deriving DecidableEq, Repr

/-- Embeds `initializePrecomputedStuff` (`move_generation.h` lines 30–35):
fills the magic, leaper and Zobrist tables once more.  It does not touch
`initialized_stuff`. -/
def initializePrecomputedStuff (s : InitState) : InitState :=
  { s with initCount := s.initCount + 1 }

/-- Embeds the lazy-initialization prologue of `pseudolegal_moves` (lines
50–53): run `initializePrecomputedStuff` and set the flag, only if the flag
is still unset. -/
def pseudolegalInitPrologue (s : InitState) : InitState :=
  if s.initialized_stuff then s
  else { initializePrecomputedStuff s with initialized_stuff := true }

/-- Embeds the execution path of `main` (`main.cpp` line 29) followed by `n`
calls of `pseudolegal_moves`: the eager startup call on the fresh flag
state, then the guarded prologue once per generator call. -/
def execMain : Nat → InitState
  | 0 => initializePrecomputedStuff ⟨false, 0⟩
  | n + 1 => pseudolegalInitPrologue (execMain n)

/-! ### The standard starting position -/

/-- Modelled from the spec: the standard chess starting position (white to
move, all castling rights, no en-passant target). -/
def startBoard : Board :=
  { white :=
      { pawn := 0x000000000000FF00, knight := 0x0000000000000042,
        bishop := 0x0000000000000024, rook := 0x0000000000000081,
        queen := 0x0000000000000008, king := 0x0000000000000010 }
    black :=
      { pawn := 0x00FF000000000000, knight := 0x4200000000000000,
        bishop := 0x2400000000000000, rook := 0x8100000000000000,
        queen := 0x0800000000000000, king := 0x1000000000000000 }
    castling := 15, ep := none, halfmove := 0, fullmove := 1,
    zobrist := 0, history := [] }

/-- A board with no pieces at all (as arises from degenerate test-fixture
FENs); in particular the side to move has no king. -/
def emptyBoard : Board :=
  { white := ⟨0, 0, 0, 0, 0, 0⟩, black := ⟨0, 0, 0, 0, 0, 0⟩,
    castling := 0, ep := none, halfmove := 0, fullmove := 1,
    zobrist := 0, history := [] }

/-- The reachable positions of the engine: the standard starting position
with white to move, and everything obtained from a reachable position by
applying a move that `generate_moves` emits for the side to move. -/
inductive Reachable : Color → Board → Prop where
  | start : Reachable Color.white startBoard
  | step {c : Color} {b : Board} {m : Move} :
      Reachable c b → m ∈ (generate_moves c [] b).2.1 →
      Reachable (switchColor c) (b.move c m)

/-! ## Theorems

The development proceeds in layers: piece-set algebra, bitboard lemmas,
the move/undo round trip, facts about generated moves, preservation of the
board invariants, the characterization of the legality filter, and finally
the claims about the embedded source functions. -/

/-! ### Piece-set algebra -/

theorem getPiece_setPiece_same (ps : PieceSet) (p : PieceType) (v : Nat) :
    getPiece (setPiece ps p v) p = v := by
  cases p <;> rfl

theorem getPiece_setPiece_ne (ps : PieceSet) {p q : PieceType} (v : Nat)
    (h : q ≠ p) : getPiece (setPiece ps p v) q = getPiece ps q := by
  cases p <;> cases q <;> simp_all [getPiece, setPiece]

theorem setPiece_setPiece_same (ps : PieceSet) (p : PieceType) (v w : Nat) :
    setPiece (setPiece ps p v) p w = setPiece ps p w := by
  cases p <;> rfl

theorem setPiece_getPiece_self (ps : PieceSet) (p : PieceType) :
    setPiece ps p (getPiece ps p) = ps := by
  cases p <;> rfl

theorem switchColor_ne (c : Color) : switchColor c ≠ c := by
  cases c <;> simp [switchColor]

theorem switchColor_switchColor (c : Color) : switchColor (switchColor c) = c := by
  cases c <;> rfl

theorem side_setSide_same (b : Board) (c : Color) (ps : PieceSet) :
    (b.setSide c ps).side c = ps := by
  cases c <;> rfl

theorem side_setSide_ne (b : Board) {c c' : Color} (ps : PieceSet)
    (h : c' ≠ c) : (b.setSide c ps).side c' = b.side c' := by
  cases c <;> cases c' <;> simp_all [Board.side, Board.setSide]

theorem castling_setSide (b : Board) (c : Color) (ps : PieceSet) :
    (b.setSide c ps).castling = b.castling := by
  cases c <;> rfl

theorem ep_setSide (b : Board) (c : Color) (ps : PieceSet) :
    (b.setSide c ps).ep = b.ep := by
  cases c <;> rfl

theorem halfmove_setSide (b : Board) (c : Color) (ps : PieceSet) :
    (b.setSide c ps).halfmove = b.halfmove := by
  cases c <;> rfl

theorem fullmove_setSide (b : Board) (c : Color) (ps : PieceSet) :
    (b.setSide c ps).fullmove = b.fullmove := by
  cases c <;> rfl

theorem zobrist_setSide (b : Board) (c : Color) (ps : PieceSet) :
    (b.setSide c ps).zobrist = b.zobrist := by
  cases c <;> rfl

theorem history_setSide (b : Board) (c : Color) (ps : PieceSet) :
    (b.setSide c ps).history = b.history := by
  cases c <;> rfl

theorem setSide_both_ext {b b' : Board}
    (hw : b.side Color.white = b'.side Color.white)
    (hb : b.side Color.black = b'.side Color.black)
    (h1 : b.castling = b'.castling) (h2 : b.ep = b'.ep)
    (h3 : b.halfmove = b'.halfmove) (h4 : b.fullmove = b'.fullmove)
    (h5 : b.zobrist = b'.zobrist) (h6 : b.history = b'.history) : b = b' := by
  cases b; cases b'
  simp_all [Board.side]

/-! ### Bitboard lemmas -/

theorem one_shiftLeft_lt (s : Nat) (h : s < 64) : (1 : Nat) <<< s < 2 ^ 64 := by
  rw [Nat.shiftLeft_eq, Nat.one_mul]
  exact Nat.pow_lt_pow_right (by omega) h

theorem testBit_one_shiftLeft (s i : Nat) :
    ((1 : Nat) <<< s).testBit i = decide (s = i) := by
  rw [Nat.shiftLeft_eq, Nat.one_mul, Nat.testBit_two_pow]

theorem testBit_ge_64 {x : Nat} (hx : x < 2 ^ 64) {i : Nat} (hi : 64 ≤ i) :
    x.testBit i = false :=
  Nat.testBit_lt_two_pow (Nat.lt_of_lt_of_le hx (Nat.pow_le_pow_right (by omega) hi))

theorem testBit_lt_64 {x i : Nat} (hx : x < 2 ^ 64) (h : x.testBit i = true) :
    i < 64 := by
  by_contra hge
  rw [testBit_ge_64 hx (by omega)] at h
  exact Bool.false_ne_true h

theorem testBit_mask64 (i : Nat) : mask64.testBit i = decide (i < 64) := by
  have : mask64 = 2 ^ 64 - 1 := by norm_num [mask64]
  rw [this, Nat.testBit_two_pow_sub_one]

theorem testBit_bbNot (x i : Nat) :
    (bbNot x).testBit i = (decide (i < 64) ^^ x.testBit i) := by
  rw [bbNot, Nat.testBit_xor, testBit_mask64]

theorem testBit_clear {x : Nat} (hx : x < 2 ^ 64) (f i : Nat) :
    (x &&& bbNot ((1 : Nat) <<< f)).testBit i =
      (x.testBit i && !(decide (f = i))) := by
  rw [Nat.testBit_and, testBit_bbNot, testBit_one_shiftLeft]
  by_cases h1 : i < 64
  · by_cases h2 : f = i <;> simp [h1, h2]
  · have hz : x.testBit i = false := testBit_ge_64 hx (by omega)
    simp [h1, hz]

theorem testBit_set (x : Nat) (t i : Nat) :
    (x ||| ((1 : Nat) <<< t)).testBit i = (x.testBit i || decide (t = i)) := by
  rw [Nat.testBit_or, testBit_one_shiftLeft]

theorem clear_then_set {x : Nat} {f : Nat} (hx : x < 2 ^ 64)
    (hbit : x.testBit f = true) :
    (x &&& bbNot ((1 : Nat) <<< f)) ||| ((1 : Nat) <<< f) = x := by
  apply Nat.eq_of_testBit_eq
  intro i
  rw [testBit_set, testBit_clear hx]
  by_cases h2 : f = i
  · subst h2; simp [hbit]
  · simp [h2, fun h => h2 (Eq.symm h)]

theorem clear_lt (x m : Nat) (hx : x < 2 ^ 64) : x &&& m < 2 ^ 64 :=
  Nat.lt_of_le_of_lt Nat.and_le_left hx

theorem set_lt {x : Nat} (t : Nat) (hx : x < 2 ^ 64) (ht : t < 64) :
    x ||| ((1 : Nat) <<< t) < 2 ^ 64 :=
  Nat.or_lt_two_pow hx (one_shiftLeft_lt t ht)

theorem set_then_clear {y : Nat} {t : Nat} (hy : y < 2 ^ 64) (ht : t < 64)
    (hbit : y.testBit t = false) :
    (y ||| ((1 : Nat) <<< t)) &&& bbNot ((1 : Nat) <<< t) = y := by
  apply Nat.eq_of_testBit_eq
  intro i
  rw [testBit_clear (set_lt t hy ht), testBit_set]
  by_cases h2 : t = i
  · subst h2; simp [hbit]
  · simp [h2]

theorem and_eq_zero_iff_testBit {x y : Nat} :
    x &&& y = 0 ↔ ∀ i, x.testBit i = false ∨ y.testBit i = false := by
  constructor
  · intro h i
    have := congrArg (fun z => z.testBit i) h
    simp only [Nat.testBit_and, Nat.zero_testBit] at this
    rcases Bool.and_eq_false_iff.mp this with h' | h'
    · exact Or.inl h'
    · exact Or.inr h'
  · intro h
    apply Nat.eq_of_testBit_eq
    intro i
    rw [Nat.testBit_and, Nat.zero_testBit]
    rcases h i with h' | h' <;> simp [h']

/-! ### The move/undo round trip on piece sets -/

theorem rookCastleSquares_some_flag {c : Color} {m : Move} {rs : Nat × Nat}
    (h : rookCastleSquares c m = some rs) :
    m.flag = MoveFlag.castleK ∨ m.flag = MoveFlag.castleQ := by
  cases hf : m.flag <;> cases c <;>
    simp [rookCastleSquares, hf] at h ⊢

theorem setPiece_absorb {ps : PieceSet} {p q : PieceType} {v : Nat}
    (h : q ≠ p) :
    setPiece (setPiece ps p v) q (getPiece ps q) = setPiece ps p v := by
  conv_lhs => rw [← @getPiece_setPiece_ne ps p q v h]
  exact setPiece_getPiece_self _ _

theorem undoPieces_movePieces (c : Color) (m : Move) (own : PieceSet)
    (hp64 : getPiece own m.piece < 2 ^ 64)
    (htp64 : getPiece own (targetPiece m) < 2 ^ 64)
    (hd64 : m.dest < 64)
    (horig : (getPiece own m.piece).testBit m.orig = true)
    (hdest : (getPiece own (targetPiece m)).testBit m.dest = false)
    (hrk : ∀ rs : Nat × Nat, rookCastleSquares c m = some rs →
      targetPiece m = m.piece ∧ m.piece = PieceType.king ∧
      getPiece own PieceType.rook < 2 ^ 64 ∧ rs.2 < 64 ∧
      (getPiece own PieceType.rook).testBit rs.1 = true ∧
      (getPiece own PieceType.rook).testBit rs.2 = false) :
    undoPieces c m (movePieces c m own) = own := by
  cases hrc : rookCastleSquares c m with
  | none =>
    by_cases htp : targetPiece m = m.piece
    · have h1 : getPiece own m.piece &&& bbNot ((1 : Nat) <<< m.orig) < 2 ^ 64 :=
        clear_lt _ _ hp64
      have h0 : (getPiece own m.piece).testBit m.dest = false := by
        rw [← htp]; exact hdest
      have h2 : (getPiece own m.piece &&& bbNot ((1 : Nat) <<< m.orig)).testBit
          m.dest = false := by
        rw [testBit_clear hp64, h0]
        rfl
      simp only [movePieces, undoPieces, hrc, htp, getPiece_setPiece_same,
        setPiece_setPiece_same]
      rw [set_then_clear h1 hd64 h2, clear_then_set hp64 horig,
        setPiece_getPiece_self]
    · have hne : targetPiece m ≠ m.piece := htp
      simp only [movePieces, undoPieces, hrc, getPiece_setPiece_same,
        setPiece_setPiece_same, getPiece_setPiece_ne _ _ hne]
      rw [set_then_clear htp64 hd64 hdest, setPiece_absorb hne,
        getPiece_setPiece_same, clear_then_set hp64 horig,
        setPiece_setPiece_same, setPiece_getPiece_self]
  | some rs =>
    obtain ⟨htp, hking, hr64, hrt64, hrf, hrt⟩ := hrk rs hrc
    have hkr : m.piece ≠ PieceType.rook := by rw [hking]; simp
    have hkr2 : PieceType.rook ≠ m.piece := fun h => hkr h.symm
    have h1 : getPiece own m.piece &&& bbNot ((1 : Nat) <<< m.orig) < 2 ^ 64 :=
      clear_lt _ _ hp64
    have h0 : (getPiece own m.piece).testBit m.dest = false := by
      rw [← htp]; exact hdest
    have h2 : (getPiece own m.piece &&& bbNot ((1 : Nat) <<< m.orig)).testBit
        m.dest = false := by
      rw [testBit_clear hp64, h0]
      rfl
    have h3 : getPiece own PieceType.rook &&& bbNot ((1 : Nat) <<< rs.1) < 2 ^ 64 :=
      clear_lt _ _ hr64
    have h4 : (getPiece own PieceType.rook &&& bbNot ((1 : Nat) <<< rs.1)).testBit
        rs.2 = false := by
      rw [testBit_clear hr64, hrt]
      rfl
    simp only [movePieces, undoPieces, hrc, htp, getPiece_setPiece_same,
      setPiece_setPiece_same, getPiece_setPiece_ne _ _ hkr2]
    rw [set_then_clear h3 hrt64 h4, clear_then_set hr64 hrf,
      setPiece_absorb hkr2, getPiece_setPiece_same,
      set_then_clear h1 hd64 h2, clear_then_set hp64 horig,
      setPiece_setPiece_same, setPiece_getPiece_self]

theorem restorePieces_capturePieces (c : Color) (m : Move)
    (cap : Option PieceType) (enemy : PieceSet)
    (h : cap.all (fun q =>
      decide (capSqOf c m < 64) &&
      (getPiece enemy q).testBit (capSqOf c m) &&
      decide (getPiece enemy q < 2 ^ 64)) = true) :
    restorePieces c m cap (capturePieces c m cap enemy) = enemy := by
  cases cap with
  | none => rfl
  | some q =>
    simp only [Option.all_some, Bool.and_eq_true, decide_eq_true_eq] at h
    obtain ⟨⟨hc64, hbit⟩, hq64⟩ := h
    simp only [capturePieces, restorePieces, getPiece_setPiece_same,
      setPiece_setPiece_same]
    rw [clear_then_set hq64 hbit, setPiece_getPiece_self]

/-- Round trip of the board mutation: under `Coherent`, `Board::undo` after
`Board::move` restores every field of the board bit for bit. -/
theorem move_undo (c : Color) (m : Move) (b : Board) (hc : Coherent c m b) :
    (b.move c m).undo c m = b := by
  obtain ⟨ho64, hd64, hne, hp64, htp64, horig, hdest, hcap, hcastle, hrook⟩ := hc
  have hrk : ∀ rs : Nat × Nat, rookCastleSquares c m = some rs →
      targetPiece m = m.piece ∧ m.piece = PieceType.king ∧
      getPiece (b.side c) PieceType.rook < 2 ^ 64 ∧ rs.2 < 64 ∧
      (getPiece (b.side c) PieceType.rook).testBit rs.1 = true ∧
      (getPiece (b.side c) PieceType.rook).testBit rs.2 = false := by
    intro rs hrc
    obtain ⟨hk, hpromo, -⟩ := hcastle (rookCastleSquares_some_flag hrc)
    have htp : targetPiece m = m.piece := by
      simp [targetPiece, hpromo]
    have := hrook
    rw [rookCoh, hrc] at this
    simp only [Option.all_some, Bool.and_eq_true, decide_eq_true_eq,
      Bool.not_eq_true'] at this
    obtain ⟨⟨⟨⟨⟨h1, h2⟩, h3⟩, h4⟩, h5⟩, h6⟩ := this
    exact ⟨htp, hk, h4, h2, h5, h6⟩
  have hOwn : undoPieces c m (movePieces c m (b.side c)) = b.side c :=
    undoPieces_movePieces c m (b.side c) hp64 htp64 hd64 horig hdest hrk
  have hEnemy : restorePieces c m m.captured
      (capturePieces c m m.captured (b.side (switchColor c))) =
        b.side (switchColor c) :=
    restorePieces_capturePieces c m m.captured (b.side (switchColor c)) hcap
  rcases b with ⟨w, bl, cr, ep, hm, fm, z, hist⟩
  cases c
  · simp only [Board.move, Board.undo, Board.side, Board.setSide, switchColor] at hOwn hEnemy ⊢
    simp [Board.mk.injEq, hOwn, hEnemy, Nat.xor_cancel_right]
  · simp only [Board.move, Board.undo, Board.side, Board.setSide, switchColor] at hOwn hEnemy ⊢
    simp [Board.mk.injEq, hOwn, hEnemy, Nat.xor_cancel_right]

/-! ### Membership support lemmas for the generators -/

theorem mem_bitsOf {bb s : Nat} :
    s ∈ bitsOf bb ↔ s < 64 ∧ bb.testBit s = true := by
  simp [bitsOf, allSquares, List.mem_filter, List.mem_range, and_comm]

theorem sideOcc_testBit (ps : PieceSet) (i : Nat) :
    (sideOcc ps).testBit i =
      (ps.pawn.testBit i || ps.knight.testBit i || ps.bishop.testBit i ||
       ps.rook.testBit i || ps.queen.testBit i || ps.king.testBit i) := by
  simp [sideOcc, Nat.testBit_or]

theorem getPiece_testBit_sideOcc {ps : PieceSet} {q : PieceType} {i : Nat}
    (h : (getPiece ps q).testBit i = true) :
    (sideOcc ps).testBit i = true := by
  rw [sideOcc_testBit]
  cases q <;> simp [getPiece] at h <;> simp [h]

theorem sideOcc_testBit_false {ps : PieceSet} {i : Nat}
    (h : (sideOcc ps).testBit i = false) (q : PieceType) :
    (getPiece ps q).testBit i = false := by
  rw [sideOcc_testBit] at h
  simp only [Bool.or_eq_false_iff] at h
  cases q <;> simp [getPiece] <;> tauto

theorem pieceAtSide_some {ps : PieceSet} {sq : Nat} {q : PieceType}
    (h : pieceAtSide ps sq = some q) :
    (getPiece ps q).testBit sq = true := by
  unfold pieceAtSide at h
  by_cases h1 : ps.pawn.testBit sq <;>
    by_cases h2 : ps.knight.testBit sq <;>
    by_cases h3 : ps.bishop.testBit sq <;>
    by_cases h4 : ps.rook.testBit sq <;>
    by_cases h5 : ps.queen.testBit sq <;>
    by_cases h6 : ps.king.testBit sq <;>
    simp [h1, h2, h3, h4, h5, h6] at h <;>
    subst h <;> simp [getPiece] <;> assumption

theorem pieceAtSide_none_of_no_occ {ps : PieceSet} {sq : Nat}
    (h : (sideOcc ps).testBit sq = false) :
    pieceAtSide ps sq = none := by
  have h1 := sideOcc_testBit_false h PieceType.pawn
  have h2 := sideOcc_testBit_false h PieceType.knight
  have h3 := sideOcc_testBit_false h PieceType.bishop
  have h4 := sideOcc_testBit_false h PieceType.rook
  have h5 := sideOcc_testBit_false h PieceType.queen
  have h6 := sideOcc_testBit_false h PieceType.king
  simp [getPiece] at h1 h2 h3 h4 h5 h6
  simp [pieceAtSide, h1, h2, h3, h4, h5, h6]

theorem pieceAtSide_isSome_of_occ {ps : PieceSet} {sq : Nat}
    (h : (sideOcc ps).testBit sq = true) :
    ∃ q, pieceAtSide ps sq = some q := by
  rw [sideOcc_testBit] at h
  unfold pieceAtSide
  by_cases h1 : ps.pawn.testBit sq
  · exact ⟨PieceType.pawn, by simp [h1]⟩
  · by_cases h2 : ps.knight.testBit sq
    · exact ⟨PieceType.knight, by simp [h1, h2]⟩
    · by_cases h3 : ps.bishop.testBit sq
      · exact ⟨PieceType.bishop, by simp [h1, h2, h3]⟩
      · by_cases h4 : ps.rook.testBit sq
        · exact ⟨PieceType.rook, by simp [h1, h2, h3, h4]⟩
        · by_cases h5 : ps.queen.testBit sq
          · exact ⟨PieceType.queen, by simp [h1, h2, h3, h4, h5]⟩
          · by_cases h6 : ps.king.testBit sq
            · exact ⟨PieceType.king, by simp [h1, h2, h3, h4, h5, h6]⟩
            · simp [h1, h2, h3, h4, h5, h6] at h

theorem mem_movesTo {p : PieceType} {enemy : PieceSet} {s : Nat}
    {targets : Nat} {m : Move} (h : m ∈ movesTo p enemy s targets) :
    ∃ t, t < 64 ∧ targets.testBit t = true ∧
      m = ⟨s, t, p, pieceAtSide enemy t, none, MoveFlag.quiet⟩ := by
  simp only [movesTo, List.mem_map] at h
  obtain ⟨t, ht, hm⟩ := h
  rw [mem_bitsOf] at ht
  exact ⟨t, ht.1, ht.2, hm.symm⟩

theorem getOccupancy_as_sides (c : Color) (b : Board) (i : Nat) :
    b.getOccupancy.testBit i =
      ((sideOcc (b.side c)).testBit i ||
       (sideOcc (b.side (switchColor c))).testBit i) := by
  cases c <;>
    simp [Board.getOccupancy, Board.side, switchColor, Nat.testBit_or] <;>
    exact Bool.or_comm _ _

theorem pieceAtSide_none_occ {ps : PieceSet} {sq : Nat}
    (h : pieceAtSide ps sq = none) : (sideOcc ps).testBit sq = false := by
  by_contra hocc
  obtain ⟨q, hq⟩ := pieceAtSide_isSome_of_occ (Bool.of_not_eq_false hocc)
  rw [hq] at h
  exact Option.some_ne_none q h

theorem movesTo_flatMap_facts {c : Color} {b : Board} {p : PieceType}
    (hp : p ≠ PieceType.pawn) {atk : Nat → Nat} {m : Move}
    (h : m ∈ (bitsOf (getPiece (b.side c) p)).flatMap (fun s =>
      movesTo p (b.side (switchColor c)) s
        (atk s &&& bbNot (sideOcc (b.side c))))) :
    MoveFacts c b m := by
  simp only [List.mem_flatMap] at h
  obtain ⟨s, hs, hm⟩ := h
  rw [mem_bitsOf] at hs
  obtain ⟨t, ht64, htb, rfl⟩ := mem_movesTo hm
  have htb' := htb
  rw [Nat.testBit_and, Bool.and_eq_true, testBit_bbNot] at htb'
  have hown : (sideOcc (b.side c)).testBit t = false := by
    have h2 := htb'.2
    simp [ht64] at h2
    exact h2
  have hsocc : (sideOcc (b.side c)).testBit s = true :=
    getPiece_testBit_sideOcc hs.2
  have hne : s ≠ t := by
    intro he
    rw [he, hown] at hsocc
    exact Bool.false_ne_true hsocc
  refine ⟨hs.1, ht64, hne, hs.2, ?_, ?_, ?_, ?_, ?_, ?_, ?_⟩
  · intro hflag; simp at hflag
  · intro _
    cases hpa : pieceAtSide (b.side (switchColor c)) t with
    | none =>
      simp only [hpa]
      have henemy : (sideOcc (b.side (switchColor c))).testBit t = false :=
        pieceAtSide_none_occ hpa
      rw [getOccupancy_as_sides c, hown, henemy]
      rfl
    | some q =>
      simp only [hpa]
      exact pieceAtSide_some hpa
  · intro hflag; rcases hflag with hf | hf <;> simp at hf
  · cases c <;> trivial
  · intro q hq; simp at hq
  · intro hf; exact absurd hf.1 hp
  · intro hf; simp at hf

theorem knightMoves_facts {c : Color} {b : Board} {m : Move}
    (h : m ∈ knightMoves c b) : MoveFacts c b m :=
  movesTo_flatMap_facts (by simp) h

theorem sliderMoves_facts {c : Color} {b : Board} {p : PieceType}
    (hp : p ≠ PieceType.pawn) {m : Move}
    (h : m ∈ sliderMoves p c b) : MoveFacts c b m :=
  movesTo_flatMap_facts hp h

theorem kingSteps_facts {c : Color} {b : Board} {att : Nat} {m : Move}
    (h : m ∈ (bitsOf (b.getKing c)).flatMap (fun s =>
      movesTo PieceType.king (b.side (switchColor c)) s
        (generateKingMask ((1 : Nat) <<< s) &&& bbNot att &&&
          bbNot (sideOcc (b.side c))))) :
    MoveFacts c b m :=
  movesTo_flatMap_facts (by simp) h

theorem and_pow_ne_iff_testBit (x k : Nat) :
    x &&& 2 ^ k ≠ 0 ↔ x.testBit k = true := by
  rw [Nat.and_two_pow]
  have hpos : 2 ^ k ≠ 0 := Nat.pos_iff_ne_zero.mp (Nat.pos_pow_of_pos k (by omega))
  cases h : x.testBit k <;> simp [h, hpos]

theorem castleMoves_facts {c : Color} {b : Board} {att : Nat} {m : Move}
    (hWF : WF c b) (h : m ∈ castleMoves c b att) : MoveFacts c b m := by
  obtain ⟨-, -, -, -, -, ⟨hc0, hc1, hc2, hc3⟩, -, -, -⟩ := hWF
  cases c <;> simp only [castleMoves, List.mem_append] at h
  case white =>
    rcases h with h | h
    · split_ifs at h with hK
      · obtain ⟨hKr, hKo5, hKo6, -, -, -⟩ := hK
        simp only [List.mem_singleton] at h
        subst h
        have hbit : b.castling.testBit 0 = true :=
          (and_pow_ne_iff_testBit b.castling 0).mp (by exact hKr)
        refine ⟨by decide, by decide, by decide, (hc0 hbit).1, by simp,
          fun _ => ?_, fun _ => ⟨rfl, rfl, rfl⟩, ?_, by simp, by simp, by simp⟩
        · simpa using Bool.not_eq_true _ |>.mp hKo6
        · exact ⟨hKr, rfl, rfl, Bool.not_eq_true _ |>.mp hKo5,
            Bool.not_eq_true _ |>.mp hKo6⟩
      · simp at h
    · split_ifs at h with hQ
      · obtain ⟨hQr, hQo1, hQo2, hQo3, -, -, -⟩ := hQ
        simp only [List.mem_singleton] at h
        subst h
        have hbit : b.castling.testBit 1 = true :=
          (and_pow_ne_iff_testBit b.castling 1).mp (by exact hQr)
        refine ⟨by decide, by decide, by decide, (hc1 hbit).1, by simp,
          fun _ => ?_, fun _ => ⟨rfl, rfl, rfl⟩, ?_, by simp, by simp, by simp⟩
        · simpa using Bool.not_eq_true _ |>.mp hQo2
        · exact ⟨hQr, rfl, rfl, Bool.not_eq_true _ |>.mp hQo1,
            Bool.not_eq_true _ |>.mp hQo2, Bool.not_eq_true _ |>.mp hQo3⟩
      · simp at h
  case black =>
    rcases h with h | h
    · split_ifs at h with hK
      · obtain ⟨hKr, hKo61, hKo62, -, -, -⟩ := hK
        simp only [List.mem_singleton] at h
        subst h
        have hbit : b.castling.testBit 2 = true :=
          (and_pow_ne_iff_testBit b.castling 2).mp (by exact hKr)
        refine ⟨by decide, by decide, by decide, (hc2 hbit).1, by simp,
          fun _ => ?_, fun _ => ⟨rfl, rfl, rfl⟩, ?_, by simp, by simp, by simp⟩
        · simpa using Bool.not_eq_true _ |>.mp hKo62
        · exact ⟨hKr, rfl, rfl, Bool.not_eq_true _ |>.mp hKo61,
            Bool.not_eq_true _ |>.mp hKo62⟩
      · simp at h
    · split_ifs at h with hQ
      · obtain ⟨hQr, hQo57, hQo58, hQo59, -, -, -⟩ := hQ
        simp only [List.mem_singleton] at h
        subst h
        have hbit : b.castling.testBit 3 = true :=
          (and_pow_ne_iff_testBit b.castling 3).mp (by exact hQr)
        refine ⟨by decide, by decide, by decide, (hc3 hbit).1, by simp,
          fun _ => ?_, fun _ => ⟨rfl, rfl, rfl⟩, ?_, by simp, by simp, by simp⟩
        · simpa using Bool.not_eq_true _ |>.mp hQo58
        · exact ⟨hQr, rfl, rfl, Bool.not_eq_true _ |>.mp hQo57,
            Bool.not_eq_true _ |>.mp hQo58, Bool.not_eq_true _ |>.mp hQo59⟩
      · simp at h

theorem kingMoves_facts {c : Color} {b : Board} {att : Nat} {m : Move}
    (hWF : WF c b) (h : m ∈ kingMoves c b att) : MoveFacts c b m := by
  simp only [kingMoves, List.mem_append] at h
  rcases h with h | h
  · exact kingSteps_facts h
  · exact castleMoves_facts hWF h

theorem testBit_rimMask (s : Nat) :
    rimMask.testBit s =
      (decide (s < 8) || (decide (56 ≤ s) && decide (s < 64))) := by
  by_cases h : s < 64
  · have hall : ∀ t, t < 64 → rimMask.testBit t =
        (decide (t < 8) || (decide (56 ≤ t) && decide (t < 64))) := by decide
    exact hall s h
  · rw [testBit_ge_64 (by norm_num [rimMask]) (by omega)]
    simp [show ¬ s < 8 by omega, show ¬ s < 64 by omega]

theorem rim_rank_bounds {pawnbb : Nat} {s : Nat} (hrim : pawnbb &&& rimMask = 0)
    (hbit : pawnbb.testBit s = true) (hs : s < 64) :
    1 ≤ s / 8 ∧ s / 8 ≤ 6 := by
  rcases and_eq_zero_iff_testBit.mp hrim s with h | h
  · rw [hbit] at h; exact absurd h (by simp)
  · rw [testBit_rimMask] at h
    simp only [Bool.or_eq_false_iff, Bool.and_eq_false_iff,
      decide_eq_false_iff_not] at h
    obtain ⟨h1, h2⟩ := h
    rcases h2 with h2 | h2
    · omega
    · omega

theorem pieceAtSide_match_fact {c : Color} {b : Board} {t : Nat}
    (hocc : (sideOcc (b.side (switchColor c))).testBit t = true) :
    (match pieceAtSide (b.side (switchColor c)) t with
     | none => b.getOccupancy.testBit t = false
     | some q => (getPiece (b.side (switchColor c)) q).testBit t = true) := by
  cases hpa : pieceAtSide (b.side (switchColor c)) t with
  | none => exact absurd (pieceAtSide_none_occ hpa) (by simp [hocc])
  | some q => exact pieceAtSide_some hpa

theorem promoMoves_facts {c : Color} {b : Board} {s t : Nat}
    {cap : Option PieceType}
    (hs64 : s < 64) (ht64 : t < 64) (hne : s ≠ t)
    (hbit : (getPiece (b.side c) PieceType.pawn).testBit s = true)
    (hF6 : match cap with
           | none => b.getOccupancy.testBit t = false
           | some q => (getPiece (b.side (switchColor c)) q).testBit t = true)
    {m : Move} (h : m ∈ promoMoves s t cap) : MoveFacts c b m := by
  simp only [promoMoves, List.mem_cons, List.not_mem_nil, or_false] at h
  rcases h with rfl | rfl | rfl | rfl <;>
    exact ⟨hs64, ht64, hne, hbit, by simp, fun _ => hF6,
      fun hf => by simp at hf, by cases c <;> trivial,
      fun p hp => by cases hp; exact ⟨by simp, rfl⟩,
      fun hf => by simp at hf, fun hf => by simp at hf⟩

theorem pawnQuiet_facts {c : Color} {b : Board} {s t : Nat}
    (hs64 : s < 64) (ht64 : t < 64) (hne : s ≠ t)
    (hbit : (getPiece (b.side c) PieceType.pawn).testBit s = true)
    (hocc : b.getOccupancy.testBit t = false)
    (hrank : 8 ≤ t ∧ t / 8 ≠ 7) :
    MoveFacts c b ⟨s, t, PieceType.pawn, none, none, MoveFlag.quiet⟩ :=
  ⟨hs64, ht64, hne, hbit, by simp, fun _ => hocc,
    fun hf => by simp at hf, by cases c <;> trivial,
    fun p hp => by simp at hp, fun _ => hrank, fun hf => by simp at hf⟩

theorem pawnCapture_facts {c : Color} {b : Board} {s t : Nat}
    (hs64 : s < 64) (ht64 : t < 64) (hne : s ≠ t)
    (hbit : (getPiece (b.side c) PieceType.pawn).testBit s = true)
    (hocc : (sideOcc (b.side (switchColor c))).testBit t = true)
    (hrank : 8 ≤ t ∧ t / 8 ≠ 7) :
    MoveFacts c b ⟨s, t, PieceType.pawn,
      pieceAtSide (b.side (switchColor c)) t, none, MoveFlag.quiet⟩ :=
  ⟨hs64, ht64, hne, hbit, by simp, fun _ => pieceAtSide_match_fact hocc,
    fun hf => by simp at hf, by cases c <;> trivial,
    fun p hp => by simp at hp, fun _ => hrank, fun hf => by simp at hf⟩

theorem pawnDoubleW_facts {b : Board} {s : Nat}
    (hs64 : s < 64) (hr : s / 8 = 1)
    (hbit : (getPiece (b.side Color.white) PieceType.pawn).testBit s = true)
    (hocc8 : b.getOccupancy.testBit (s + 8) = false)
    (hocc16 : b.getOccupancy.testBit (s + 16) = false) :
    MoveFacts Color.white b
      ⟨s, s + 16, PieceType.pawn, none, none, MoveFlag.doublePush⟩ :=
  ⟨hs64, show s + 16 < 64 by omega, show s ≠ s + 16 by omega, hbit,
    fun hf => by simp at hf, fun _ => hocc16, fun hf => by simp at hf,
    by trivial, fun p hp => by simp at hp,
    fun _ => ⟨show 8 ≤ s + 16 by omega, show (s + 16) / 8 ≠ 7 by omega⟩,
    fun _ => ⟨rfl, rfl, rfl, hr, rfl, hocc8⟩⟩

theorem pawnDoubleB_facts {b : Board} {s : Nat}
    (hs64 : s < 64) (hr : s / 8 = 6)
    (hbit : (getPiece (b.side Color.black) PieceType.pawn).testBit s = true)
    (hocc8 : b.getOccupancy.testBit (s - 8) = false)
    (hocc16 : b.getOccupancy.testBit (s - 16) = false) :
    MoveFacts Color.black b
      ⟨s, s - 16, PieceType.pawn, none, none, MoveFlag.doublePush⟩ :=
  ⟨hs64, show s - 16 < 64 by omega, show s ≠ s - 16 by omega, hbit,
    fun hf => by simp at hf, fun _ => hocc16, fun hf => by simp at hf,
    by trivial, fun p hp => by simp at hp,
    fun _ => ⟨show 8 ≤ s - 16 by omega, show (s - 16) / 8 ≠ 7 by omega⟩,
    fun _ => ⟨rfl, rfl, rfl, hr, show 16 ≤ s by omega, rfl, hocc8⟩⟩

theorem pawnMoves_facts {c : Color} {b : Board} {m : Move}
    (hWF : WF c b) (h : m ∈ pawnMoves c b) : MoveFacts c b m := by
  obtain ⟨-, -, -, hrimW, hrimB, -, hep, -, -⟩ := hWF
  simp only [pawnMoves, List.mem_flatMap] at h
  obtain ⟨s, hs, hm⟩ := h
  rw [mem_bitsOf] at hs
  obtain ⟨hs64, hsbit⟩ := hs
  cases c
  case white =>
    have hrank : 1 ≤ s / 8 ∧ s / 8 ≤ 6 := rim_rank_bounds hrimW hsbit hs64
    simp only [pawnMovesFrom, switchColor, Board.side, List.append_assoc,
      List.mem_append] at hm
    rcases hm with h | h | h | h
    · -- pushes
      by_cases h1 : b.getOccupancy.testBit (s + 8) = true
      · rw [if_neg (by simp [h1])] at h
        simp at h
      · rw [if_pos h1] at h
        by_cases h2 : s / 8 = 6
        · rw [if_pos h2] at h
          exact promoMoves_facts hs64 (by omega) (by omega) hsbit
            (Bool.not_eq_true _ |>.mp h1) h
        · rw [if_neg h2] at h
          by_cases h3 : s / 8 = 1 ∧ ¬ b.getOccupancy.testBit (s + 16) = true
          · rw [if_pos h3] at h
            simp only [List.mem_append, List.mem_singleton,
              List.not_mem_nil, or_false] at h
            rcases h with rfl | rfl
            · exact pawnQuiet_facts hs64 (by omega) (by omega) hsbit
                (Bool.not_eq_true _ |>.mp h1) ⟨by omega, by omega⟩
            · exact pawnDoubleW_facts hs64 h3.1 hsbit
                (Bool.not_eq_true _ |>.mp h1) (Bool.not_eq_true _ |>.mp h3.2)
          · rw [if_neg h3] at h
            simp only [List.append_nil, List.mem_singleton] at h
            subst h
            exact pawnQuiet_facts hs64 (by omega) (by omega) hsbit
              (Bool.not_eq_true _ |>.mp h1) ⟨by omega, by omega⟩
    · -- west captures
      by_cases h1 : s % 8 ≠ 0 ∧ (sideOcc b.black).testBit (s + 7) = true
      · rw [if_pos h1] at h
        by_cases h2 : s / 8 = 6
        · rw [if_pos h2] at h
          exact promoMoves_facts hs64 (by omega) (by omega) hsbit
            (pieceAtSide_match_fact h1.2) h
        · rw [if_neg h2] at h
          simp only [List.mem_singleton] at h
          subst h
          exact pawnCapture_facts hs64 (by omega) (by omega) hsbit h1.2
            ⟨by omega, by omega⟩
      · rw [if_neg h1] at h
        simp at h
    · -- east captures
      by_cases h1 : s % 8 ≠ 7 ∧ (sideOcc b.black).testBit (s + 9) = true
      · rw [if_pos h1] at h
        by_cases h2 : s / 8 = 6
        · rw [if_pos h2] at h
          exact promoMoves_facts hs64 (by omega) (by omega) hsbit
            (pieceAtSide_match_fact h1.2) h
        · rw [if_neg h2] at h
          simp only [List.mem_singleton] at h
          subst h
          exact pawnCapture_facts hs64 (by omega) (by omega) hsbit h1.2
            ⟨by omega, by omega⟩
      · rw [if_neg h1] at h
        simp at h
    · -- en passant
      cases hepsq : b.ep with
      | none =>
        rw [hepsq] at h
        simp at h
      | some e =>
        rw [hepsq] at h
        change m ∈ (if (s % 8 ≠ 0 ∧ e = s + 7) ∨ (s % 8 ≠ 7 ∧ e = s + 9) then
          [(⟨s, e, PieceType.pawn, some PieceType.pawn, none,
            MoveFlag.enPassant⟩ : Move)] else []) at h
        simp only [epOk, hepsq, Option.all_some, Bool.and_eq_true,
          decide_eq_true_eq, Bool.not_eq_true'] at hep
        obtain ⟨⟨he5, -⟩, -⟩ := hep
        by_cases h1 : (s % 8 ≠ 0 ∧ e = s + 7) ∨ (s % 8 ≠ 7 ∧ e = s + 9)
        · rw [if_pos h1] at h
          simp only [List.mem_singleton] at h
          subst h
          refine ⟨hs64, show e < 64 by omega, ?_, hsbit,
            fun _ => ⟨hepsq, rfl, rfl, rfl⟩,
            fun hf => absurd rfl hf,
            fun hf => by simp at hf, by trivial,
            fun p hp => by simp at hp,
            fun hf => absurd rfl hf.2.2,
            fun hf => by simp at hf⟩
          show s ≠ e
          rcases h1 with ⟨-, he⟩ | ⟨-, he⟩ <;> omega
        · rw [if_neg h1] at h
          simp at h
  case black =>
    have hrank : 1 ≤ s / 8 ∧ s / 8 ≤ 6 := rim_rank_bounds hrimB hsbit hs64
    simp only [pawnMovesFrom, switchColor, Board.side, List.append_assoc,
      List.mem_append] at hm
    rcases hm with h | h | h | h
    · -- pushes
      by_cases h1 : s ≥ 8 ∧ ¬ b.getOccupancy.testBit (s - 8) = true
      · rw [if_pos h1] at h
        by_cases h2 : s / 8 = 1
        · rw [if_pos h2] at h
          exact promoMoves_facts hs64 (by omega) (by omega) hsbit
            (Bool.not_eq_true _ |>.mp h1.2) h
        · rw [if_neg h2] at h
          by_cases h3 : s / 8 = 6 ∧ ¬ b.getOccupancy.testBit (s - 16) = true
          · rw [if_pos h3] at h
            simp only [List.mem_append, List.mem_singleton,
              List.not_mem_nil, or_false] at h
            rcases h with rfl | rfl
            · exact pawnQuiet_facts hs64 (by omega) (by omega) hsbit
                (Bool.not_eq_true _ |>.mp h1.2) ⟨by omega, by omega⟩
            · exact pawnDoubleB_facts hs64 h3.1 hsbit
                (Bool.not_eq_true _ |>.mp h1.2) (Bool.not_eq_true _ |>.mp h3.2)
          · rw [if_neg h3] at h
            simp only [List.append_nil, List.mem_singleton] at h
            subst h
            exact pawnQuiet_facts hs64 (by omega) (by omega) hsbit
              (Bool.not_eq_true _ |>.mp h1.2) ⟨by omega, by omega⟩
      · rw [if_neg h1] at h
        simp at h
    · -- west captures (towards lower files)
      by_cases h1 : s % 8 ≠ 0 ∧ s ≥ 9 ∧ (sideOcc b.white).testBit (s - 9) = true
      · rw [if_pos h1] at h
        by_cases h2 : s / 8 = 1
        · rw [if_pos h2] at h
          exact promoMoves_facts hs64 (by omega) (by omega) hsbit
            (pieceAtSide_match_fact h1.2.2) h
        · rw [if_neg h2] at h
          simp only [List.mem_singleton] at h
          subst h
          exact pawnCapture_facts hs64 (by omega) (by omega) hsbit h1.2.2
            ⟨by omega, by omega⟩
      · rw [if_neg h1] at h
        simp at h
    · -- east captures
      by_cases h1 : s % 8 ≠ 7 ∧ s ≥ 7 ∧ (sideOcc b.white).testBit (s - 7) = true
      · rw [if_pos h1] at h
        by_cases h2 : s / 8 = 1
        · rw [if_pos h2] at h
          exact promoMoves_facts hs64 (by omega) (by omega) hsbit
            (pieceAtSide_match_fact h1.2.2) h
        · rw [if_neg h2] at h
          simp only [List.mem_singleton] at h
          subst h
          exact pawnCapture_facts hs64 (by omega) (by omega) hsbit h1.2.2
            ⟨by omega, by omega⟩
      · rw [if_neg h1] at h
        simp at h
    · -- en passant
      cases hepsq : b.ep with
      | none =>
        rw [hepsq] at h
        simp at h
      | some e =>
        rw [hepsq] at h
        change m ∈ (if (s % 8 ≠ 0 ∧ s ≥ 9 ∧ e = s - 9) ∨ (s % 8 ≠ 7 ∧ s ≥ 7 ∧ e = s - 7) then
          [(⟨s, e, PieceType.pawn, some PieceType.pawn, none,
            MoveFlag.enPassant⟩ : Move)] else []) at h
        simp only [epOk, hepsq, Option.all_some, Bool.and_eq_true,
          decide_eq_true_eq, Bool.not_eq_true'] at hep
        obtain ⟨⟨he2, -⟩, -⟩ := hep
        by_cases h1 : (s % 8 ≠ 0 ∧ s ≥ 9 ∧ e = s - 9) ∨ (s % 8 ≠ 7 ∧ s ≥ 7 ∧ e = s - 7)
        · rw [if_pos h1] at h
          simp only [List.mem_singleton] at h
          subst h
          refine ⟨hs64, show e < 64 by omega, ?_, hsbit,
            fun _ => ⟨hepsq, rfl, rfl, rfl⟩,
            fun hf => absurd rfl hf,
            fun hf => by simp at hf, by trivial,
            fun p hp => by simp at hp,
            fun hf => absurd rfl hf.2.2,
            fun hf => by simp at hf⟩
          show s ≠ e
          rcases h1 with ⟨-, -, he⟩ | ⟨-, -, he⟩ <;> omega
        · rw [if_neg h1] at h
          simp at h

theorem pseudolegal_facts {c : Color} {b : Board} {l : List Move} {m : Move}
    (hWF : WF c b) (h : m ∈ (pseudolegal_moves c l b).2) :
    m ∈ l ∨ MoveFacts c b m := by
  unfold pseudolegal_moves at h
  by_cases hk : b.getKing c = 0
  · rw [if_pos hk] at h
    exact Or.inl h
  · rw [if_neg hk] at h
    simp only [List.append_assoc, List.mem_append] at h
    rcases h with h | h | h | h | h | h | h
    · exact Or.inl h
    · exact Or.inr (pawnMoves_facts hWF h)
    · exact Or.inr (knightMoves_facts h)
    · exact Or.inr (kingMoves_facts hWF h)
    · exact Or.inr (sliderMoves_facts (by simp) h)
    · exact Or.inr (sliderMoves_facts (by simp) h)
    · exact Or.inr (sliderMoves_facts (by simp) h)

/-! ### From move facts to coherence -/

theorem bbBound_getPiece {ps : PieceSet} (h : bbBound ps) (p : PieceType) :
    getPiece ps p < 2 ^ 64 := by
  obtain ⟨h1, h2, h3, h4, h5, h6⟩ := h
  cases p <;> assumption

theorem WF_bound_side {c : Color} {b : Board} (hWF : WF c b) (d : Color) :
    bbBound (b.side d) := by
  cases d
  · exact hWF.1
  · exact hWF.2.1

theorem occ_false_side {b : Board} {i : Nat} (d : Color)
    (h : b.getOccupancy.testBit i = false) :
    (sideOcc (b.side d)).testBit i = false := by
  rw [getOccupancy_as_sides d] at h
  exact (Bool.or_eq_false_iff.mp h).1

theorem disjoint_sides {c : Color} {b : Board}
    (hd : sideOcc b.white &&& sideOcc b.black = 0) {i : Nat}
    (h : (sideOcc (b.side (switchColor c))).testBit i = true) :
    (sideOcc (b.side c)).testBit i = false := by
  rcases and_eq_zero_iff_testBit.mp hd i with hw | hb
  · cases c
    · exact hw
    · simp only [switchColor, Board.side] at h
      rw [hw] at h
      exact absurd h (by simp)
  · cases c
    · simp only [switchColor, Board.side] at h
      rw [hb] at h
      exact absurd h (by simp)
    · exact hb

theorem coherent_of_facts {c : Color} {b : Board} {m : Move}
    (hWF : WF c b) (hf : MoveFacts c b m) : Coherent c m b := by
  obtain ⟨f1, f2, f3, f4, f5, f6, f7, f8, f9, f10, f11⟩ := hf
  have hdisj := hWF.2.2.1
  have hcastleOk := hWF.2.2.2.2.2.1
  have hepok := hWF.2.2.2.2.2.2.1
  have hbOwn := WF_bound_side hWF c
  have hbEnemy := WF_bound_side hWF (switchColor c)
  have hownDest : (sideOcc (b.side c)).testBit m.dest = false := by
    by_cases hfl : m.flag = MoveFlag.enPassant
    · obtain ⟨hepd, -, -, -⟩ := f5 hfl
      have hthis := hepok
      rw [epOk, hepd, Option.all_some] at hthis
      cases c
      · simp only [Bool.and_eq_true, decide_eq_true_eq,
          Bool.not_eq_true'] at hthis
        exact occ_false_side Color.white hthis.2
      · simp only [Bool.and_eq_true, decide_eq_true_eq,
          Bool.not_eq_true'] at hthis
        exact occ_false_side Color.black hthis.2
    · have h6 := f6 hfl
      cases hcap : m.captured with
      | none =>
        have hocc : b.getOccupancy.testBit m.dest = false := by
          rw [hcap] at h6; exact h6
        exact occ_false_side c hocc
      | some q =>
        have henemy : (getPiece (b.side (switchColor c)) q).testBit m.dest = true := by
          rw [hcap] at h6; exact h6
        exact disjoint_sides hdisj (getPiece_testBit_sideOcc henemy)
  refine ⟨f1, f2, f3, bbBound_getPiece hbOwn _, bbBound_getPiece hbOwn _, f4,
    sideOcc_testBit_false hownDest _, ?_, f7, ?_⟩
  · -- captured clause
    cases hcap : m.captured with
    | none => rfl
    | some q =>
      rw [Option.all_some]
      simp only [Bool.and_eq_true, decide_eq_true_eq]
      by_cases hfl : m.flag = MoveFlag.enPassant
      · obtain ⟨hepd, hcapP, hpieceP, hpromoP⟩ := f5 hfl
        rw [hcap] at hcapP
        injection hcapP with hq
        subst hq
        have hthis := hepok
        rw [epOk, hepd, Option.all_some] at hthis
        cases c
        · have hcs : capSqOf Color.white m = m.dest - 8 := by
            rw [capSqOf.eq_def, if_pos hfl]
          simp only [Bool.and_eq_true, decide_eq_true_eq,
            Bool.not_eq_true'] at hthis
          obtain ⟨⟨he5, hpb⟩, -⟩ := hthis
          rw [hcs]
          exact ⟨⟨by omega, hpb⟩, bbBound_getPiece hbEnemy _⟩
        · have hcs : capSqOf Color.black m = m.dest + 8 := by
            rw [capSqOf.eq_def, if_pos hfl]
          simp only [Bool.and_eq_true, decide_eq_true_eq,
            Bool.not_eq_true'] at hthis
          obtain ⟨⟨he2, hpb⟩, -⟩ := hthis
          rw [hcs]
          exact ⟨⟨by omega, hpb⟩, bbBound_getPiece hbEnemy _⟩
      · have h6 := f6 hfl
        rw [hcap] at h6
        have hbit : (getPiece (b.side (switchColor c)) q).testBit m.dest = true := h6
        have hcs : capSqOf c m = m.dest := by rw [capSqOf.eq_def, if_neg hfl]
        rw [hcs]
        exact ⟨⟨f2, hbit⟩, bbBound_getPiece hbEnemy _⟩
  · -- rook coherence
    obtain ⟨hc0, hc1, hc2, hc3⟩ := hcastleOk
    cases c <;> cases hfl : m.flag <;>
      simp only [rookCoh, rookCastleSquares, hfl, Option.all_none,
        Option.all_some] <;>
      simp only [Bool.and_eq_true, decide_eq_true_eq, Bool.not_eq_true']
    · -- white castleK
      have hcf := f8
      simp only [castleFacts, hfl] at hcf
      obtain ⟨hr, -, -, ho5, ho6⟩ := hcf
      have h7 : b.white.rook.testBit 7 = true :=
        (hc0 ((and_pow_ne_iff_testBit b.castling 0).mp (by exact hr))).2
      have h5 : b.white.rook.testBit 5 = false := by
        have := occ_false_side Color.white ho5
        exact sideOcc_testBit_false this PieceType.rook
      exact ⟨⟨⟨⟨⟨by omega, by omega⟩, by omega⟩,
        bbBound_getPiece hbOwn PieceType.rook⟩, h7⟩, h5⟩
    · -- white castleQ
      have hcf := f8
      simp only [castleFacts, hfl] at hcf
      obtain ⟨hr, -, -, ho1, ho2, ho3⟩ := hcf
      have h0 : b.white.rook.testBit 0 = true :=
        (hc1 ((and_pow_ne_iff_testBit b.castling 1).mp (by exact hr))).2
      have h3b : b.white.rook.testBit 3 = false := by
        have := occ_false_side Color.white ho3
        exact sideOcc_testBit_false this PieceType.rook
      exact ⟨⟨⟨⟨⟨by omega, by omega⟩, by omega⟩,
        bbBound_getPiece hbOwn PieceType.rook⟩, h0⟩, h3b⟩
    · -- black castleK
      have hcf := f8
      simp only [castleFacts, hfl] at hcf
      obtain ⟨hr, -, -, ho61, ho62⟩ := hcf
      have h63 : b.black.rook.testBit 63 = true :=
        (hc2 ((and_pow_ne_iff_testBit b.castling 2).mp (by exact hr))).2
      have h61 : b.black.rook.testBit 61 = false := by
        have := occ_false_side Color.black ho61
        exact sideOcc_testBit_false this PieceType.rook
      exact ⟨⟨⟨⟨⟨by omega, by omega⟩, by omega⟩,
        bbBound_getPiece hbOwn PieceType.rook⟩, h63⟩, h61⟩
    · -- black castleQ
      have hcf := f8
      simp only [castleFacts, hfl] at hcf
      obtain ⟨hr, -, -, ho57, ho58, ho59⟩ := hcf
      have h56 : b.black.rook.testBit 56 = true :=
        (hc3 ((and_pow_ne_iff_testBit b.castling 3).mp (by exact hr))).2
      have h59 : b.black.rook.testBit 59 = false := by
        have := occ_false_side Color.black ho59
        exact sideOcc_testBit_false this PieceType.rook
      exact ⟨⟨⟨⟨⟨by omega, by omega⟩, by omega⟩,
        bbBound_getPiece hbOwn PieceType.rook⟩, h56⟩, h59⟩

/-! ### Characterizing the piece-set updates bit by bit -/

theorem and_zero_not_both {x y : Nat} (h : x &&& y = 0) {i : Nat}
    (hx : x.testBit i = true) : y.testBit i = false := by
  rcases and_eq_zero_iff_testBit.mp h i with h' | h'
  · rw [hx] at h'; exact absurd h' (by simp)
  · exact h'

theorem and_zero_not_both_comm {x y : Nat} (h : x &&& y = 0) {i : Nat}
    (hy : y.testBit i = true) : x.testBit i = false :=
  and_zero_not_both (by rw [Nat.land_comm]; exact h) hy

theorem not_both_of_and_zero {x y : Nat} (h : x &&& y = 0) {i : Nat}
    (hx : x.testBit i = true) (hy : y.testBit i = true) : False := by
  have h0 := and_zero_not_both h hx
  rw [hy] at h0
  simp at h0

theorem planesDisjoint_unique {ps : PieceSet} (pd : planesDisjoint ps)
    {q r : PieceType} {i : Nat}
    (hq : (getPiece ps q).testBit i = true)
    (hr : (getPiece ps r).testBit i = true) : q = r := by
  obtain ⟨d1, d2, d3, d4, d5, d6, d7, d8, d9, d10, d11, d12, d13, d14, d15⟩ := pd
  cases q <;> cases r <;>
    simp only [getPiece] at hq hr <;>
    first
      | rfl
      | (exact (not_both_of_and_zero (by assumption) hq hr).elim)
      | (exact (not_both_of_and_zero (by assumption) hr hq).elim)

theorem sideOcc_exists {ps : PieceSet} {i : Nat}
    (h : (sideOcc ps).testBit i = true) :
    ∃ q, (getPiece ps q).testBit i = true := by
  rw [sideOcc_testBit] at h
  simp only [Bool.or_eq_true] at h
  rcases h with ((((h | h) | h) | h) | h) | h
  · exact ⟨PieceType.pawn, h⟩
  · exact ⟨PieceType.knight, h⟩
  · exact ⟨PieceType.bishop, h⟩
  · exact ⟨PieceType.rook, h⟩
  · exact ⟨PieceType.queen, h⟩
  · exact ⟨PieceType.king, h⟩

theorem bbBound_of_getPiece {ps : PieceSet}
    (h : ∀ q, getPiece ps q < 2 ^ 64) : bbBound ps :=
  ⟨h PieceType.pawn, h PieceType.knight, h PieceType.bishop,
   h PieceType.rook, h PieceType.queen, h PieceType.king⟩

theorem rookCastleSquares_vals {c : Color} {m : Move} {rs : Nat × Nat}
    (h : rookCastleSquares c m = some rs) : rs.1 < 64 ∧ rs.2 < 64 := by
  obtain ⟨r1, r2⟩ := rs
  show r1 < 64 ∧ r2 < 64
  cases hf : m.flag <;> cases c <;>
    simp [rookCastleSquares, hf, Prod.ext_iff] at h <;> omega

theorem capturePieces_testBit_le {c : Color} {m : Move} {cap : Option PieceType}
    {enemy : PieceSet} {q : PieceType} {i : Nat}
    (h : (getPiece (capturePieces c m cap enemy) q).testBit i = true) :
    (getPiece enemy q).testBit i = true := by
  cases cap with
  | none => exact h
  | some q0 =>
    by_cases hq : q = q0
    · subst hq
      rw [capturePieces, getPiece_setPiece_same, Nat.testBit_and,
        Bool.and_eq_true] at h
      exact h.1
    · rw [capturePieces, getPiece_setPiece_ne _ _ hq] at h
      exact h

theorem capturePieces_frame {c : Color} {m : Move} {cap : Option PieceType}
    {enemy : PieceSet} (q : PieceType) {i : Nat} (hi : i < 64)
    (hne : i ≠ capSqOf c m) :
    (getPiece (capturePieces c m cap enemy) q).testBit i =
      (getPiece enemy q).testBit i := by
  cases cap with
  | none => rfl
  | some q0 =>
    by_cases hq : q = q0
    · subst hq
      rw [capturePieces, getPiece_setPiece_same, Nat.testBit_and,
        testBit_bbNot, testBit_one_shiftLeft]
      have hcsne : ¬ capSqOf c m = i := fun h => hne h.symm
      simp [hi, hcsne]
    · rw [capturePieces, getPiece_setPiece_ne _ _ hq]

theorem capturePieces_cleared {c : Color} {m : Move} {enemy : PieceSet}
    (q0 : PieceType) (hcs : capSqOf c m < 64) :
    (getPiece (capturePieces c m (some q0) enemy) q0).testBit
      (capSqOf c m) = false := by
  rw [capturePieces, getPiece_setPiece_same, Nat.testBit_and,
    testBit_bbNot, testBit_one_shiftLeft]
  simp [hcs]

theorem capturePieces_bound {c : Color} {m : Move} {cap : Option PieceType}
    {enemy : PieceSet} (hb : bbBound enemy) :
    bbBound (capturePieces c m cap enemy) := by
  apply bbBound_of_getPiece
  intro q
  cases cap with
  | none => exact bbBound_getPiece hb q
  | some q0 =>
    by_cases hq : q = q0
    · subst hq
      rw [capturePieces, getPiece_setPiece_same]
      exact clear_lt _ _ (bbBound_getPiece hb q)
    · rw [capturePieces, getPiece_setPiece_ne _ _ hq]
      exact bbBound_getPiece hb q

theorem movePieces_testBit_le {c : Color} {m : Move} {own : PieceSet}
    {q : PieceType} {i : Nat}
    (h : (getPiece (movePieces c m own) q).testBit i = true) :
    (getPiece own q).testBit i = true ∨
      (i = m.dest ∧ q = targetPiece m) ∨
      (∃ rs : Nat × Nat, rookCastleSquares c m = some rs ∧ i = rs.2 ∧
        q = PieceType.rook) := by
  have clear_le : ∀ x f : Nat,
      (x &&& bbNot ((1 : Nat) <<< f)).testBit i = true →
      x.testBit i = true := by
    intro x f hx
    rw [Nat.testBit_and, Bool.and_eq_true] at hx
    exact hx.1
  have core : (getPiece
      (setPiece
        (setPiece own m.piece
          (getPiece own m.piece &&& bbNot ((1 : Nat) <<< m.orig)))
        (targetPiece m)
        (getPiece
          (setPiece own m.piece
            (getPiece own m.piece &&& bbNot ((1 : Nat) <<< m.orig)))
          (targetPiece m) ||| ((1 : Nat) <<< m.dest)))
      q).testBit i = true →
      (getPiece own q).testBit i = true ∨ (i = m.dest ∧ q = targetPiece m) := by
    intro hx
    by_cases hq2 : q = targetPiece m
    · rw [hq2, getPiece_setPiece_same, testBit_set] at hx
      rcases Bool.or_eq_true_iff.mp hx with h' | h'
      · by_cases hq1 : targetPiece m = m.piece
        · rw [hq1, getPiece_setPiece_same] at h'
          exact Or.inl (by rw [hq2, hq1]; exact clear_le _ _ h')
        · rw [getPiece_setPiece_ne _ _ hq1] at h'
          exact Or.inl (by rw [hq2]; exact h')
      · simp at h'
        exact Or.inr ⟨h'.symm, hq2⟩
    · rw [getPiece_setPiece_ne _ _ hq2] at hx
      by_cases hq1 : q = m.piece
      · rw [hq1, getPiece_setPiece_same] at hx
        exact Or.inl (by rw [hq1]; exact clear_le _ _ hx)
      · rw [getPiece_setPiece_ne _ _ hq1] at hx
        exact Or.inl hx
  cases hrc : rookCastleSquares c m with
  | none =>
    rw [movePieces.eq_def, hrc] at h
    simp only at h
    rcases core h with h' | h'
    · exact Or.inl h'
    · exact Or.inr (Or.inl h')
  | some rs =>
    rw [movePieces.eq_def, hrc] at h
    simp only at h
    by_cases hqr : q = PieceType.rook
    · rw [hqr, getPiece_setPiece_same, testBit_set] at h
      rcases Bool.or_eq_true_iff.mp h with h' | h'
      · have h'' := clear_le _ _ h'
        rw [← hqr] at h''
        rcases core h'' with h3 | h3
        · exact Or.inl h3
        · exact Or.inr (Or.inl h3)
      · simp at h'
        exact Or.inr (Or.inr ⟨rs, rfl, h'.symm, hqr⟩)
    · rw [getPiece_setPiece_ne _ _ hqr] at h
      rcases core h with h' | h'
      · exact Or.inl h'
      · exact Or.inr (Or.inl h')

theorem clear_frame (x f : Nat) {i : Nat} (hi : i < 64) (hne : f ≠ i) :
    (x &&& bbNot ((1 : Nat) <<< f)).testBit i = x.testBit i := by
  rw [Nat.testBit_and, testBit_bbNot, testBit_one_shiftLeft]
  simp [hi, hne]

theorem set_frame (x t : Nat) {i : Nat} (hne : t ≠ i) :
    (x ||| ((1 : Nat) <<< t)).testBit i = x.testBit i := by
  rw [testBit_set]
  simp [hne]

theorem capSqOf_non_ep {c : Color} {m : Move}
    (h : m.flag ≠ MoveFlag.enPassant) : capSqOf c m = m.dest := by
  rw [capSqOf.eq_def, if_neg h]

theorem capturePieces_keep {c : Color} {m : Move} {cap : Option PieceType}
    {enemy : PieceSet} {q : PieceType} {i : Nat} (hi : i < 64)
    (h : i ≠ capSqOf c m ∨ ∀ q0, cap = some q0 → q ≠ q0) :
    (getPiece (capturePieces c m cap enemy) q).testBit i =
      (getPiece enemy q).testBit i := by
  cases cap with
  | none => rfl
  | some q0 =>
    rcases h with h | h
    · exact capturePieces_frame q hi h
    · rw [capturePieces, getPiece_setPiece_ne _ _ (h q0 rfl)]

theorem movePieces_bound {c : Color} {m : Move} {own : PieceSet}
    (hb : bbBound own) (hd : m.dest < 64) : bbBound (movePieces c m own) := by
  have h1 : ∀ q, getPiece (setPiece own m.piece
      (getPiece own m.piece &&& bbNot ((1 : Nat) <<< m.orig))) q < 2 ^ 64 := by
    intro q
    by_cases hq : q = m.piece
    · rw [hq, getPiece_setPiece_same]
      exact clear_lt _ _ (bbBound_getPiece hb _)
    · rw [getPiece_setPiece_ne _ _ hq]
      exact bbBound_getPiece hb q
  have h2 : ∀ q, getPiece (setPiece (setPiece own m.piece
      (getPiece own m.piece &&& bbNot ((1 : Nat) <<< m.orig)))
      (targetPiece m)
      (getPiece (setPiece own m.piece
        (getPiece own m.piece &&& bbNot ((1 : Nat) <<< m.orig)))
        (targetPiece m) ||| ((1 : Nat) <<< m.dest))) q < 2 ^ 64 := by
    intro q
    by_cases hq : q = targetPiece m
    · rw [hq, getPiece_setPiece_same]
      exact set_lt _ (h1 _) hd
    · rw [getPiece_setPiece_ne _ _ hq]
      exact h1 q
  apply bbBound_of_getPiece
  intro q
  cases hrc : rookCastleSquares c m with
  | none =>
    rw [movePieces.eq_def, hrc]
    simp only
    exact h2 q
  | some rs =>
    rw [movePieces.eq_def, hrc]
    simp only
    by_cases hq : q = PieceType.rook
    · rw [hq, getPiece_setPiece_same]
      exact set_lt _ (clear_lt _ _ (h2 _)) (rookCastleSquares_vals hrc).2
    · rw [getPiece_setPiece_ne _ _ hq]
      exact h2 q

theorem movePieces_frame {c : Color} {m : Move} {own : PieceSet}
    {i : Nat} (hi : i < 64) (ho : i ≠ m.orig) (hd : i ≠ m.dest)
    (hrs : ∀ rs : Nat × Nat, rookCastleSquares c m = some rs →
      i ≠ rs.1 ∧ i ≠ rs.2)
    (q : PieceType) :
    (getPiece (movePieces c m own) q).testBit i =
      (getPiece own q).testBit i := by
  have h1 : ∀ q, (getPiece (setPiece own m.piece
      (getPiece own m.piece &&& bbNot ((1 : Nat) <<< m.orig))) q).testBit i =
      (getPiece own q).testBit i := by
    intro q
    by_cases hq : q = m.piece
    · rw [hq, getPiece_setPiece_same, clear_frame _ _ hi (Ne.symm ho)]
    · rw [getPiece_setPiece_ne _ _ hq]
  have h2 : ∀ q, (getPiece (setPiece (setPiece own m.piece
      (getPiece own m.piece &&& bbNot ((1 : Nat) <<< m.orig)))
      (targetPiece m)
      (getPiece (setPiece own m.piece
        (getPiece own m.piece &&& bbNot ((1 : Nat) <<< m.orig)))
        (targetPiece m) ||| ((1 : Nat) <<< m.dest))) q).testBit i =
      (getPiece own q).testBit i := by
    intro q
    by_cases hq : q = targetPiece m
    · rw [hq, getPiece_setPiece_same, set_frame _ _ (Ne.symm hd)]
      exact h1 _
    · rw [getPiece_setPiece_ne _ _ hq]
      exact h1 q
  cases hrc : rookCastleSquares c m with
  | none =>
    rw [movePieces.eq_def, hrc]
    simp only
    exact h2 q
  | some rs =>
    obtain ⟨hne1, hne2⟩ := hrs rs hrc
    rw [movePieces.eq_def, hrc]
    simp only
    by_cases hq : q = PieceType.rook
    · rw [hq, getPiece_setPiece_same, set_frame _ _ (Ne.symm hne2),
        clear_frame _ _ hi (Ne.symm hne1)]
      exact h2 _
    · rw [getPiece_setPiece_ne _ _ hq]
      exact h2 q

theorem movePieces_dest_set {c : Color} {m : Move} {own : PieceSet}
    (hnr : rookCastleSquares c m = none ∨ targetPiece m ≠ PieceType.rook) :
    (getPiece (movePieces c m own) (targetPiece m)).testBit m.dest = true := by
  have h2 : (getPiece (setPiece (setPiece own m.piece
      (getPiece own m.piece &&& bbNot ((1 : Nat) <<< m.orig)))
      (targetPiece m)
      (getPiece (setPiece own m.piece
        (getPiece own m.piece &&& bbNot ((1 : Nat) <<< m.orig)))
        (targetPiece m) ||| ((1 : Nat) <<< m.dest)))
      (targetPiece m)).testBit m.dest = true := by
    rw [getPiece_setPiece_same, testBit_set]
    simp
  cases hrc : rookCastleSquares c m with
  | none =>
    rw [movePieces.eq_def, hrc]
    simp only
    exact h2
  | some rs =>
    have hq : targetPiece m ≠ PieceType.rook := by
      rcases hnr with h | h
      · rw [h] at hrc; exact absurd hrc (by simp)
      · exact h
    rw [movePieces.eq_def, hrc]
    simp only
    rw [getPiece_setPiece_ne _ _ hq]
    exact h2

theorem sideOcc_testBit_false_of (ps : PieceSet) {i : Nat}
    (h : ∀ q, (getPiece ps q).testBit i = false) :
    (sideOcc ps).testBit i = false := by
  have h1 := h PieceType.pawn
  have h2 := h PieceType.knight
  have h3 := h PieceType.bishop
  have h4 := h PieceType.rook
  have h5 := h PieceType.queen
  have h6 := h PieceType.king
  simp only [getPiece] at h1 h2 h3 h4 h5 h6
  rw [sideOcc_testBit, h1, h2, h3, h4, h5, h6]
  rfl

theorem movePieces_plane_false {c : Color} {m : Move} {own : PieceSet}
    {i : Nat} (hocc : ∀ q, (getPiece own q).testBit i = false)
    (hd : i ≠ m.dest)
    (hrs : ∀ rs : Nat × Nat, rookCastleSquares c m = some rs → i ≠ rs.2)
    (q : PieceType) :
    (getPiece (movePieces c m own) q).testBit i = false := by
  by_contra h
  have h' : (getPiece (movePieces c m own) q).testBit i = true := by
    revert h; cases (getPiece (movePieces c m own) q).testBit i <;> simp
  rcases movePieces_testBit_le h' with h0 | ⟨hid, -⟩ | ⟨rs, hrc, hid, -⟩
  · rw [hocc q] at h0; exact Bool.false_ne_true h0
  · exact hd hid
  · exact hrs rs hrc hid

theorem and_zero_of_le_bits {y x r : Nat}
    (hle : ∀ i, y.testBit i = true → x.testBit i = true)
    (h : x &&& r = 0) : y &&& r = 0 := by
  rw [and_eq_zero_iff_testBit]
  intro i
  by_cases hb : y.testBit i = true
  · exact Or.inr (and_zero_not_both h (hle i hb))
  · refine Or.inl ?_
    revert hb; cases y.testBit i <;> simp

theorem rookCastleSquares_cases {c : Color} {m : Move} {rs : Nat × Nat}
    (h : rookCastleSquares c m = some rs) :
    (c = Color.white ∧ m.flag = MoveFlag.castleK ∧ rs = (7, 5)) ∨
    (c = Color.white ∧ m.flag = MoveFlag.castleQ ∧ rs = (0, 3)) ∨
    (c = Color.black ∧ m.flag = MoveFlag.castleK ∧ rs = (63, 61)) ∨
    (c = Color.black ∧ m.flag = MoveFlag.castleQ ∧ rs = (56, 59)) := by
  cases c <;> cases hf : m.flag <;>
    simp only [rookCastleSquares, hf] at h <;>
    first
      | (injection h with h2; subst h2; simp [hf])
      | simp at h

theorem rookCastleSquares_none_of_flag {c : Color} {m : Move}
    (h1 : m.flag ≠ MoveFlag.castleK) (h2 : m.flag ≠ MoveFlag.castleQ) :
    rookCastleSquares c m = none := by
  cases c <;> cases hf : m.flag <;>
    first
      | (exact absurd hf h1)
      | (exact absurd hf h2)
      | simp [rookCastleSquares, hf]

theorem castleMaskOf_true {s k : Nat} (h : (castleMaskOf s).testBit k = true) :
    (k = 0 → s ≠ 4 ∧ s ≠ 7) ∧ (k = 1 → s ≠ 4 ∧ s ≠ 0) ∧
    (k = 2 → s ≠ 60 ∧ s ≠ 63) ∧ (k = 3 → s ≠ 60 ∧ s ≠ 56) := by
  rw [castleMaskOf] at h
  split_ifs at h with h4 h7 h0 h60 h63 h56 <;> subst_eqs <;>
    refine ⟨fun hk => ?_, fun hk => ?_, fun hk => ?_, fun hk => ?_⟩ <;>
      subst hk <;>
      first
        | (exact absurd h (by decide))
        | (constructor <;> omega)

theorem castleUpdate_testBit {cr : Nat} {m : Move} {k : Nat}
    (h : (castleUpdate cr m).testBit k = true) :
    cr.testBit k = true ∧ (castleMaskOf m.orig).testBit k = true ∧
      (castleMaskOf m.dest).testBit k = true := by
  rw [castleUpdate, Nat.testBit_and, Nat.testBit_and] at h
  simp only [Bool.and_eq_true] at h
  exact ⟨h.1.1, h.1.2, h.2⟩

/-! ### Projections of the board after a move -/

theorem move_side_own (b : Board) (c : Color) (m : Move) :
    (b.move c m).side c = movePieces c m (b.side c) := by
  cases c <;> rfl

theorem move_side_enemy (b : Board) (c : Color) (m : Move) :
    (b.move c m).side (switchColor c) =
      capturePieces c m m.captured (b.side (switchColor c)) := by
  cases c <;> rfl

theorem move_castling (b : Board) (c : Color) (m : Move) :
    (b.move c m).castling = castleUpdate b.castling m := rfl

theorem move_ep (b : Board) (c : Color) (m : Move) :
    (b.move c m).ep = epTargetOf m := rfl

theorem side_white (b : Board) : b.side Color.white = b.white := rfl

theorem side_black (b : Board) : b.side Color.black = b.black := rfl

theorem move_keep_square {c : Color} {b : Board} {m : Move}
    (d : Color) (q : PieceType) {i : Nat} (hi : i < 64)
    (ho : i ≠ m.orig) (hd : i ≠ m.dest)
    (hrs : ∀ rs : Nat × Nat, rookCastleSquares c m = some rs →
      i ≠ rs.1 ∧ i ≠ rs.2)
    (hcap : i ≠ capSqOf c m ∨ ∀ q0, m.captured = some q0 → q ≠ q0) :
    (getPiece ((b.move c m).side d) q).testBit i =
      (getPiece (b.side d) q).testBit i := by
  by_cases hdc : d = c
  · subst hdc
    rw [move_side_own]
    exact movePieces_frame hi ho hd hrs q
  · have hds : d = switchColor c := by
      cases d <;> cases c <;> first | rfl | (exact absurd rfl hdc)
    subst hds
    rw [move_side_enemy]
    exact capturePieces_keep hi hcap

theorem cap_disj_of_not_pawn {c : Color} {b : Board} {m : Move}
    (hf : MoveFacts c b m) {q : PieceType} {i : Nat}
    (hq : q ≠ PieceType.pawn) (hd : i ≠ m.dest) :
    i ≠ capSqOf c m ∨ ∀ q0, m.captured = some q0 → q ≠ q0 := by
  by_cases hfl : m.flag = MoveFlag.enPassant
  · right
    intro q0 hq0
    obtain ⟨-, hcap, -, -⟩ := hf.2.2.2.2.1 hfl
    rw [hq0] at hcap
    injection hcap with h
    rw [h]
    exact hq
  · left
    rw [capSqOf_non_ep hfl]
    exact hd

theorem own_dest_free {c : Color} {b : Board} {m : Move}
    (hWF : WF c b) (hf : MoveFacts c b m) :
    (sideOcc (b.side c)).testBit m.dest = false := by
  obtain ⟨f1, f2, f3, f4, f5, f6, f7, f8, f9, f10, f11⟩ := hf
  have hdisj := hWF.2.2.1
  have hepok := hWF.2.2.2.2.2.2.1
  by_cases hfl : m.flag = MoveFlag.enPassant
  · obtain ⟨hepd, -, -, -⟩ := f5 hfl
    have hthis := hepok
    rw [epOk, hepd, Option.all_some] at hthis
    cases c
    · simp only [Bool.and_eq_true, decide_eq_true_eq,
        Bool.not_eq_true'] at hthis
      exact occ_false_side Color.white hthis.2
    · simp only [Bool.and_eq_true, decide_eq_true_eq,
        Bool.not_eq_true'] at hthis
      exact occ_false_side Color.black hthis.2
  · have h6 := f6 hfl
    cases hcap : m.captured with
    | none =>
      have hocc : b.getOccupancy.testBit m.dest = false := by
        rw [hcap] at h6; exact h6
      exact occ_false_side c hocc
    | some q =>
      have henemy : (getPiece (b.side (switchColor c)) q).testBit m.dest = true := by
        rw [hcap] at h6; exact h6
      exact disjoint_sides hdisj (getPiece_testBit_sideOcc henemy)

theorem castle_rt_occ_false {c : Color} {b : Board} {m : Move} {rs : Nat × Nat}
    (hf : MoveFacts c b m) (hrc : rookCastleSquares c m = some rs) :
    b.getOccupancy.testBit rs.2 = false := by
  have f8 := hf.2.2.2.2.2.2.2.1
  rcases rookCastleSquares_cases hrc with
    ⟨hc, hfl, hrs⟩ | ⟨hc, hfl, hrs⟩ | ⟨hc, hfl, hrs⟩ | ⟨hc, hfl, hrs⟩ <;>
      subst hc <;> subst hrs <;>
      simp only [castleFacts, hfl] at f8
  · exact f8.2.2.2.1
  · exact f8.2.2.2.2.2
  · exact f8.2.2.2.1
  · exact f8.2.2.2.2.2

theorem castle_dest_ne_rt {c : Color} {b : Board} {m : Move} {rs : Nat × Nat}
    (hf8 : castleFacts c b m) (hrc : rookCastleSquares c m = some rs) :
    m.dest ≠ rs.2 := by
  rcases rookCastleSquares_cases hrc with
    ⟨hc, hfl, hrs⟩ | ⟨hc, hfl, hrs⟩ | ⟨hc, hfl, hrs⟩ | ⟨hc, hfl, hrs⟩ <;>
      subst hc <;> subst hrs <;>
      simp only [castleFacts, hfl] at hf8 <;> omega

/-! ### Preservation of the board invariants by a move -/

theorem WF_disj {c : Color} {b : Board} (hWF : WF c b) :
    sideOcc b.white &&& sideOcc b.black = 0 := hWF.2.2.1

theorem WF_rim {c : Color} {b : Board} (hWF : WF c b) (d : Color) :
    (b.side d).pawn &&& rimMask = 0 := by
  cases d
  · exact hWF.2.2.2.1
  · exact hWF.2.2.2.2.1

theorem WF_castleOk {c : Color} {b : Board} (hWF : WF c b) : castleOk b :=
  hWF.2.2.2.2.2.1

theorem WF_epOk {c : Color} {b : Board} (hWF : WF c b) : epOk c b :=
  hWF.2.2.2.2.2.2.1

theorem WF_planes {c : Color} {b : Board} (hWF : WF c b) (d : Color) :
    planesDisjoint (b.side d) := by
  cases d
  · exact hWF.2.2.2.2.2.2.2.1
  · exact hWF.2.2.2.2.2.2.2.2

theorem disjoint_sides_rev {c : Color} {b : Board}
    (hd : sideOcc b.white &&& sideOcc b.black = 0) {i : Nat}
    (h : (sideOcc (b.side c)).testBit i = true) :
    (sideOcc (b.side (switchColor c))).testBit i = false := by
  have h' : (sideOcc (b.side (switchColor (switchColor c)))).testBit i = true := by
    rw [switchColor_switchColor]
    exact h
  exact disjoint_sides hd h'

theorem capturePieces_sideOcc_false {c : Color} {m : Move}
    {cap : Option PieceType} {enemy : PieceSet} {i : Nat}
    (h : (sideOcc enemy).testBit i = false) :
    (sideOcc (capturePieces c m cap enemy)).testBit i = false := by
  apply sideOcc_testBit_false_of
  intro q
  by_contra hq
  have hq' : (getPiece (capturePieces c m cap enemy) q).testBit i = true := by
    revert hq; cases (getPiece (capturePieces c m cap enemy) q).testBit i <;> simp
  have := getPiece_testBit_sideOcc (capturePieces_testBit_le hq')
  rw [h] at this
  exact Bool.false_ne_true this

theorem ep_dest_occ_false {c : Color} {b : Board} {m : Move}
    (hWF : WF c b) (hepd : b.ep = some m.dest) :
    b.getOccupancy.testBit m.dest = false := by
  have hepok := WF_epOk hWF
  rw [epOk, hepd, Option.all_some] at hepok
  cases c <;>
    simp only [Bool.and_eq_true, decide_eq_true_eq,
      Bool.not_eq_true'] at hepok <;>
    exact hepok.2

theorem enemy_after_dest_false {c : Color} {b : Board} {m : Move}
    (hWF : WF c b) (hf : MoveFacts c b m) :
    (sideOcc (capturePieces c m m.captured (b.side (switchColor c)))).testBit
      m.dest = false := by
  by_cases hfl : m.flag = MoveFlag.enPassant
  · have hocc := ep_dest_occ_false hWF (hf.2.2.2.2.1 hfl).1
    exact capturePieces_sideOcc_false (occ_false_side (switchColor c) hocc)
  · have h6 := hf.2.2.2.2.2.1 hfl
    cases hcap : m.captured with
    | none =>
      rw [hcap] at h6
      have hocc : b.getOccupancy.testBit m.dest = false := h6
      exact capturePieces_sideOcc_false (occ_false_side (switchColor c) hocc)
    | some q0 =>
      rw [hcap] at h6
      have hq0 : (getPiece (b.side (switchColor c)) q0).testBit m.dest = true := h6
      apply sideOcc_testBit_false_of
      intro r
      by_cases hr : r = q0
      · subst hr
        have hcl := @capturePieces_cleared c m (b.side (switchColor c)) r
          (by rw [capSqOf_non_ep hfl]; exact hf.2.1)
        rw [capSqOf_non_ep hfl] at hcl
        exact hcl
      · rw [capturePieces, getPiece_setPiece_ne _ _ hr]
        by_contra hb'
        have hb'' : (getPiece (b.side (switchColor c)) r).testBit m.dest = true := by
          revert hb'
          cases (getPiece (b.side (switchColor c)) r).testBit m.dest <;> simp
        exact hr (planesDisjoint_unique (WF_planes hWF (switchColor c)) hb'' hq0)

theorem WF_move_disjoint {c : Color} {b : Board} {m : Move}
    (hWF : WF c b) (hf : MoveFacts c b m) :
    sideOcc (movePieces c m (b.side c)) &&&
      sideOcc (capturePieces c m m.captured (b.side (switchColor c))) = 0 := by
  rw [and_eq_zero_iff_testBit]
  intro i
  by_cases hown : (sideOcc (movePieces c m (b.side c))).testBit i = true
  · refine Or.inr ?_
    obtain ⟨q, hq⟩ := sideOcc_exists hown
    rcases movePieces_testBit_le hq with hold | ⟨hid, -⟩ | ⟨rs, hrc, hid, -⟩
    · have hside : (sideOcc (b.side c)).testBit i = true :=
        getPiece_testBit_sideOcc hold
      exact capturePieces_sideOcc_false (disjoint_sides_rev (WF_disj hWF) hside)
    · subst hid
      exact enemy_after_dest_false hWF hf
    · subst hid
      have hocc := castle_rt_occ_false hf hrc
      exact capturePieces_sideOcc_false (occ_false_side (switchColor c) hocc)
  · refine Or.inl ?_
    revert hown
    cases (sideOcc (movePieces c m (b.side c))).testBit i <;> simp

theorem targetPiece_pawn {m : Move}
    (hf9 : ∀ p, m.promo = some p → p ≠ PieceType.pawn ∧ m.piece = PieceType.pawn)
    (ht : targetPiece m = PieceType.pawn) :
    m.promo = none ∧ m.piece = PieceType.pawn := by
  cases hp : m.promo with
  | none =>
    rw [targetPiece, hp] at ht
    exact ⟨rfl, ht⟩
  | some p =>
    rw [targetPiece, hp] at ht
    exact absurd ht (hf9 p hp).1

theorem WF_move_rim_own {c : Color} {b : Board} {m : Move}
    (hWF : WF c b) (hf : MoveFacts c b m) :
    (movePieces c m (b.side c)).pawn &&& rimMask = 0 := by
  obtain ⟨f1, f2, f3, f4, f5, f6, f7, f8, f9, f10, f11⟩ := hf
  rw [and_eq_zero_iff_testBit]
  intro i
  by_cases hb' : (movePieces c m (b.side c)).pawn.testBit i = true
  · refine Or.inr ?_
    have hb'' : (getPiece (movePieces c m (b.side c)) PieceType.pawn).testBit i
        = true := hb'
    rcases movePieces_testBit_le hb'' with hold | ⟨hid, htq⟩ | ⟨rs, hrc, hid, hqr⟩
    · exact and_zero_not_both (WF_rim hWF c) hold
    · subst hid
      obtain ⟨hpromo, hpiece⟩ := targetPiece_pawn f9 htq.symm
      by_cases hfl : m.flag = MoveFlag.enPassant
      · obtain ⟨hepd, -, -, -⟩ := f5 hfl
        have hepok := WF_epOk hWF
        rw [epOk, hepd, Option.all_some] at hepok
        rw [testBit_rimMask]
        cases c <;>
          simp only [Bool.and_eq_true, decide_eq_true_eq,
            Bool.not_eq_true'] at hepok <;>
          [(have h5 : m.dest / 8 = 5 := hepok.1.1);
           (have h2 : m.dest / 8 = 2 := hepok.1.1)] <;>
          simp only [Bool.or_eq_false_iff, Bool.and_eq_false_iff,
            decide_eq_false_iff_not] <;>
          constructor <;> omega
      · obtain ⟨hge, hne7⟩ := f10 ⟨hpiece, hpromo, hfl⟩
        rw [testBit_rimMask]
        simp only [Bool.or_eq_false_iff, Bool.and_eq_false_iff,
          decide_eq_false_iff_not]
        constructor
        · omega
        · left; omega
    · exact absurd hqr (by decide)
  · refine Or.inl ?_
    revert hb'
    cases (movePieces c m (b.side c)).pawn.testBit i <;> simp

theorem WF_move_rim_enemy {c : Color} {b : Board} {m : Move}
    (hWF : WF c b) :
    (capturePieces c m m.captured (b.side (switchColor c))).pawn &&&
      rimMask = 0 := by
  apply and_zero_of_le_bits (x := (b.side (switchColor c)).pawn)
  · intro i h
    exact @capturePieces_testBit_le c m m.captured
      (b.side (switchColor c)) PieceType.pawn i h
  · exact WF_rim hWF (switchColor c)

theorem planesDisjoint_of_unique {ps : PieceSet}
    (h : ∀ q r i, (getPiece ps q).testBit i = true →
      (getPiece ps r).testBit i = true → q = r) : planesDisjoint ps := by
  have hp : ∀ (q r : PieceType), q ≠ r →
      getPiece ps q &&& getPiece ps r = 0 := by
    intro q r hqr
    rw [and_eq_zero_iff_testBit]
    intro i
    by_cases h1 : (getPiece ps q).testBit i = true
    · by_cases h2 : (getPiece ps r).testBit i = true
      · exact absurd (h q r i h1 h2) hqr
      · exact Or.inr (by revert h2; cases (getPiece ps r).testBit i <;> simp)
    · exact Or.inl (by revert h1; cases (getPiece ps q).testBit i <;> simp)
  exact ⟨hp PieceType.pawn PieceType.knight (by decide),
    hp PieceType.pawn PieceType.bishop (by decide),
    hp PieceType.pawn PieceType.rook (by decide),
    hp PieceType.pawn PieceType.queen (by decide),
    hp PieceType.pawn PieceType.king (by decide),
    hp PieceType.knight PieceType.bishop (by decide),
    hp PieceType.knight PieceType.rook (by decide),
    hp PieceType.knight PieceType.queen (by decide),
    hp PieceType.knight PieceType.king (by decide),
    hp PieceType.bishop PieceType.rook (by decide),
    hp PieceType.bishop PieceType.queen (by decide),
    hp PieceType.bishop PieceType.king (by decide),
    hp PieceType.rook PieceType.queen (by decide),
    hp PieceType.rook PieceType.king (by decide),
    hp PieceType.queen PieceType.king (by decide)⟩

theorem WF_move_planes_own {c : Color} {b : Board} {m : Move}
    (hWF : WF c b) (hf : MoveFacts c b m) :
    planesDisjoint (movePieces c m (b.side c)) := by
  have hfree := own_dest_free hWF hf
  apply planesDisjoint_of_unique
  intro q r i hq hr
  rcases movePieces_testBit_le hq with hq1 | ⟨hqi, hqt⟩ | ⟨rsq, hrcq, hqi, hqt⟩ <;>
    rcases movePieces_testBit_le hr with hr1 | ⟨hri, hrt⟩ | ⟨rsr, hrcr, hri, hrt⟩
  · exact planesDisjoint_unique (WF_planes hWF c) hq1 hr1
  · subst hri
    rw [sideOcc_testBit_false hfree q] at hq1
    exact absurd hq1 Bool.false_ne_true
  · subst hri
    have hocc := castle_rt_occ_false hf hrcr
    have := sideOcc_testBit_false (occ_false_side c hocc) q
    rw [this] at hq1
    exact absurd hq1 Bool.false_ne_true
  · subst hqi
    rw [sideOcc_testBit_false hfree r] at hr1
    exact absurd hr1 Bool.false_ne_true
  · rw [hqt, hrt]
  · subst hqi
    exact absurd hri (castle_dest_ne_rt hf.2.2.2.2.2.2.2.1 hrcr)
  · subst hqi
    have hocc := castle_rt_occ_false hf hrcq
    have := sideOcc_testBit_false (occ_false_side c hocc) r
    rw [this] at hr1
    exact absurd hr1 Bool.false_ne_true
  · subst hqi
    exact absurd hri.symm (castle_dest_ne_rt hf.2.2.2.2.2.2.2.1 hrcq)
  · rw [hqt, hrt]

theorem WF_move_planes_enemy {c : Color} {b : Board} {m : Move}
    (hWF : WF c b) :
    planesDisjoint (capturePieces c m m.captured (b.side (switchColor c))) :=
  planesDisjoint_of_unique (fun q r i h1 h2 =>
    planesDisjoint_unique (WF_planes hWF (switchColor c))
      (capturePieces_testBit_le h1) (capturePieces_testBit_le h2))

theorem keep_white_castle_sq {c : Color} {b : Board} {m : Move}
    (hf8 : castleFacts c b m) {i : Nat}
    (horig : m.orig ≠ 4) (hi : i = 0 ∨ i = 4 ∨ i = 7) :
    ∀ rs : Nat × Nat, rookCastleSquares c m = some rs →
      i ≠ rs.1 ∧ i ≠ rs.2 := by
  intro rs hrc
  rcases rookCastleSquares_cases hrc with
    ⟨hc, hfl, hrs⟩ | ⟨hc, hfl, hrs⟩ | ⟨hc, hfl, hrs⟩ | ⟨hc, hfl, hrs⟩ <;>
    subst hc <;> simp only [castleFacts, hfl] at hf8
  · exact absurd hf8.2.1 horig
  · exact absurd hf8.2.1 horig
  · subst hrs
    rcases hi with h | h | h <;> subst h <;> exact ⟨by decide, by decide⟩
  · subst hrs
    rcases hi with h | h | h <;> subst h <;> exact ⟨by decide, by decide⟩

theorem keep_black_castle_sq {c : Color} {b : Board} {m : Move}
    (hf8 : castleFacts c b m) {i : Nat}
    (horig : m.orig ≠ 60) (hi : i = 56 ∨ i = 60 ∨ i = 63) :
    ∀ rs : Nat × Nat, rookCastleSquares c m = some rs →
      i ≠ rs.1 ∧ i ≠ rs.2 := by
  intro rs hrc
  rcases rookCastleSquares_cases hrc with
    ⟨hc, hfl, hrs⟩ | ⟨hc, hfl, hrs⟩ | ⟨hc, hfl, hrs⟩ | ⟨hc, hfl, hrs⟩ <;>
    subst hc <;> simp only [castleFacts, hfl] at hf8
  · subst hrs
    rcases hi with h | h | h <;> subst h <;> exact ⟨by decide, by decide⟩
  · subst hrs
    rcases hi with h | h | h <;> subst h <;> exact ⟨by decide, by decide⟩
  · exact absurd hf8.2.1 horig
  · exact absurd hf8.2.1 horig

theorem WF_move_castleOk {c : Color} {b : Board} {m : Move}
    (hWF : WF c b) (hf : MoveFacts c b m) : castleOk (b.move c m) := by
  have hf8 := hf.2.2.2.2.2.2.2.1
  have hcOld := WF_castleOk hWF
  have keep : ∀ (d : Color) (q : PieceType) (i : Nat), i < 64 →
      q ≠ PieceType.pawn → i ≠ m.orig → i ≠ m.dest →
      (∀ rs : Nat × Nat, rookCastleSquares c m = some rs →
        i ≠ rs.1 ∧ i ≠ rs.2) →
      (getPiece (b.side d) q).testBit i = true →
      (getPiece ((b.move c m).side d) q).testBit i = true := by
    intro d q i hi hq ho hd hrs hold
    rw [move_keep_square d q hi ho hd hrs (cap_disj_of_not_pawn hf hq hd)]
    exact hold
  refine ⟨fun hk => ?_, fun hk => ?_, fun hk => ?_, fun hk => ?_⟩ <;>
    rw [move_castling] at hk <;>
    obtain ⟨hcr, hmo, hmd⟩ := castleUpdate_testBit hk
  · -- white king side: squares 4 and 7
    obtain ⟨ho4, ho7⟩ := (castleMaskOf_true hmo).1 rfl
    obtain ⟨hd4, hd7⟩ := (castleMaskOf_true hmd).1 rfl
    obtain ⟨hk4, hr7⟩ := hcOld.1 hcr
    constructor
    · exact keep Color.white PieceType.king 4 (by omega) (by decide)
        (Ne.symm ho4) (Ne.symm hd4)
        (keep_white_castle_sq hf8 ho4 (by omega)) hk4
    · exact keep Color.white PieceType.rook 7 (by omega) (by decide)
        (Ne.symm ho7) (Ne.symm hd7)
        (keep_white_castle_sq hf8 ho4 (by omega)) hr7
  · -- white queen side: squares 4 and 0
    obtain ⟨ho4, ho0⟩ := (castleMaskOf_true hmo).2.1 rfl
    obtain ⟨hd4, hd0⟩ := (castleMaskOf_true hmd).2.1 rfl
    obtain ⟨hk4, hr0⟩ := hcOld.2.1 hcr
    constructor
    · exact keep Color.white PieceType.king 4 (by omega) (by decide)
        (Ne.symm ho4) (Ne.symm hd4)
        (keep_white_castle_sq hf8 ho4 (by omega)) hk4
    · exact keep Color.white PieceType.rook 0 (by omega) (by decide)
        (Ne.symm ho0) (Ne.symm hd0)
        (keep_white_castle_sq hf8 ho4 (by omega)) hr0
  · -- black king side: squares 60 and 63
    obtain ⟨ho60, ho63⟩ := (castleMaskOf_true hmo).2.2.1 rfl
    obtain ⟨hd60, hd63⟩ := (castleMaskOf_true hmd).2.2.1 rfl
    obtain ⟨hk60, hr63⟩ := hcOld.2.2.1 hcr
    constructor
    · exact keep Color.black PieceType.king 60 (by omega) (by decide)
        (Ne.symm ho60) (Ne.symm hd60)
        (keep_black_castle_sq hf8 ho60 (by omega)) hk60
    · exact keep Color.black PieceType.rook 63 (by omega) (by decide)
        (Ne.symm ho63) (Ne.symm hd63)
        (keep_black_castle_sq hf8 ho60 (by omega)) hr63
  · -- black queen side: squares 60 and 56
    obtain ⟨ho60, ho56⟩ := (castleMaskOf_true hmo).2.2.2 rfl
    obtain ⟨hd60, hd56⟩ := (castleMaskOf_true hmd).2.2.2 rfl
    obtain ⟨hk60, hr56⟩ := hcOld.2.2.2 hcr
    constructor
    · exact keep Color.black PieceType.king 60 (by omega) (by decide)
        (Ne.symm ho60) (Ne.symm hd60)
        (keep_black_castle_sq hf8 ho60 (by omega)) hk60
    · exact keep Color.black PieceType.rook 56 (by omega) (by decide)
        (Ne.symm ho56) (Ne.symm hd56)
        (keep_black_castle_sq hf8 ho60 (by omega)) hr56

theorem move_occ_false {c : Color} {b : Board} {m : Move} {i : Nat}
    (hocc : b.getOccupancy.testBit i = false) (hd : i ≠ m.dest)
    (hrs : ∀ rs : Nat × Nat, rookCastleSquares c m = some rs → i ≠ rs.2) :
    (b.move c m).getOccupancy.testBit i = false := by
  rw [getOccupancy_as_sides c, move_side_own, move_side_enemy]
  have hown : (sideOcc (b.side c)).testBit i = false := occ_false_side c hocc
  have henemy : (sideOcc (b.side (switchColor c))).testBit i = false :=
    occ_false_side (switchColor c) hocc
  rw [sideOcc_testBit_false_of _
      (movePieces_plane_false (sideOcc_testBit_false hown) hd hrs),
    capturePieces_sideOcc_false henemy]
  rfl

theorem WF_move_epOk {c : Color} {b : Board} {m : Move}
    (hWF : WF c b) (hf : MoveFacts c b m) :
    epOk (switchColor c) (b.move c m) := by
  obtain ⟨f1, f2, f3, f4, f5, f6, f7, f8, f9, f10, f11⟩ := hf
  by_cases hdp : m.flag = MoveFlag.doublePush
  · have hrsnone : rookCastleSquares c m = none :=
      rookCastleSquares_none_of_flag (by rw [hdp]; decide) (by rw [hdp]; decide)
    obtain ⟨hpiece, hpromo, hcap, hcc⟩ := f11 hdp
    have htp : targetPiece m = PieceType.pawn := by
      rw [targetPiece, hpromo, Option.getD, hpiece]
    rw [epOk, move_ep, epTargetOf, if_pos hdp, Option.all_some]
    cases c
    · -- white double push: target square is orig + 8
      obtain ⟨hr1, hdest, hoccmid⟩ := hcc
      have he : (m.orig + m.dest) / 2 = m.orig + 8 := by omega
      rw [he]
      simp only [switchColor, Bool.and_eq_true, decide_eq_true_eq,
        Bool.not_eq_true']
      refine ⟨⟨by omega, ?_⟩, ?_⟩
      · -- the pushed pawn stands on dest = (orig+8)+8
        have hset := @movePieces_dest_set Color.white m
          (b.side Color.white) (Or.inl hrsnone)
        rw [htp] at hset
        have hb' : (b.move Color.white m).white.pawn.testBit m.dest = true := by
          have := hset
          rw [← move_side_own] at this
          exact this
        rw [show m.orig + 8 + 8 = m.dest by omega]
        exact hb'
      · -- the passed-over square stays empty
        exact move_occ_false hoccmid (by omega)
          (fun rs hrc => absurd (hrsnone ▸ hrc) (by simp))
    · -- black double push: target square is orig - 8
      obtain ⟨hr6, hge16, hdest, hoccmid⟩ := hcc
      have he : (m.orig + m.dest) / 2 = m.orig - 8 := by omega
      rw [he]
      simp only [switchColor, Bool.and_eq_true, decide_eq_true_eq,
        Bool.not_eq_true']
      refine ⟨⟨by omega, ?_⟩, ?_⟩
      · have hset := @movePieces_dest_set Color.black m
          (b.side Color.black) (Or.inl hrsnone)
        rw [htp] at hset
        have hb' : (b.move Color.black m).black.pawn.testBit m.dest = true := by
          have := hset
          rw [← move_side_own] at this
          exact this
        rw [show m.orig - 8 - 8 = m.dest by omega]
        exact hb'
      · exact move_occ_false hoccmid (by omega)
          (fun rs hrc => absurd (hrsnone ▸ hrc) (by simp))
  · rw [epOk, move_ep, epTargetOf, if_neg hdp]
    rfl

/-- Applying any generator-emitted move to a well-formed position yields a
well-formed position for the opponent: every board invariant of `WF` is
preserved by `Board.move`. -/
theorem WF_move {c : Color} {b : Board} {m : Move}
    (hWF : WF c b) (hf : MoveFacts c b m) :
    WF (switchColor c) (b.move c m) := by
  have hbOwn := movePieces_bound (c := c) (m := m) (WF_bound_side hWF c) hf.2.1
  have hbEnemy := @capturePieces_bound c m m.captured
    (b.side (switchColor c)) (WF_bound_side hWF (switchColor c))
  have hdisj := WF_move_disjoint hWF hf
  have hrimO := WF_move_rim_own hWF hf
  have hrimE := WF_move_rim_enemy (m := m) hWF
  have hcast := WF_move_castleOk hWF hf
  have hep := WF_move_epOk hWF hf
  have hplO := WF_move_planes_own hWF hf
  have hplE := WF_move_planes_enemy (m := m) hWF
  cases c
  · exact ⟨hbOwn, hbEnemy, hdisj, hrimO, hrimE, hcast, hep, hplO, hplE⟩
  · exact ⟨hbEnemy, hbOwn, (Nat.land_comm _ _).trans hdisj, hrimE, hrimO,
      hcast, hep, hplE, hplO⟩

/-! ### The swap-remove operation of the move list -/

theorem removeSwap_eq {l : List Move} {i : Nat} (h : i < l.length)
    (hne : l ≠ []) :
    removeSwap l i =
      l.take i ++ (l.getLast hne :: l.drop (i + 1)).dropLast := by
  rw [removeSwap]
  have hlast : l.getD (l.length - 1) dummyMove = l.getLast hne := by
    rw [List.getLast_eq_getElem, List.getD_eq_getElem?_getD,
      List.getElem?_eq_getElem (by omega)]
    rfl
  rw [hlast, List.set_eq_take_cons_drop _ h, List.dropLast_append_cons]

theorem removeSwap_length {l : List Move} {i : Nat} :
    (removeSwap l i).length = l.length - 1 := by
  rw [removeSwap, List.length_dropLast, List.length_set]

theorem removeSwap_take {l : List Move} {i : Nat} (h : i < l.length)
    (hne : l ≠ []) : (removeSwap l i).take i = l.take i := by
  rw [removeSwap_eq h hne]
  exact List.take_left' (by rw [List.length_take]; omega)

theorem removeSwap_drop_perm {l : List Move} {i : Nat} (h : i < l.length)
    (hne : l ≠ []) :
    List.Perm ((removeSwap l i).drop i) (l.drop (i + 1)) := by
  rw [removeSwap_eq h hne,
    List.drop_left' (by rw [List.length_take]; omega)]
  by_cases hd : l.drop (i + 1) = []
  · rw [hd]
    simp
  · have hg : l.getLast hne = (l.drop (i + 1)).getLast hd := by
      rw [List.getLast_eq_getElem, List.getLast_eq_getElem]
      have hlen : (l.drop (i + 1)).length = l.length - (i + 1) := by
        rw [List.length_drop]
      have hlt : 0 < l.length - (i + 1) := by
        by_contra hz
        exact hd (List.eq_nil_of_length_eq_zero (by omega))
      rw [List.getElem_drop]
      congr 1
      omega
    have h1 : (l.getLast hne :: l.drop (i + 1)).dropLast =
        l.getLast hne :: (l.drop (i + 1)).dropLast := by
      show ([l.getLast hne] ++ l.drop (i + 1)).dropLast = _
      rw [List.dropLast_append]
      simp [hd]
    rw [h1, hg]
    conv_rhs => rw [← List.dropLast_append_getLast hd]
    exact (List.perm_append_singleton _ _).symm

theorem removeSwap_perm {l : List Move} {i : Nat} (h : i < l.length)
    (hne : l ≠ []) :
    List.Perm (removeSwap l i) (l.take i ++ l.drop (i + 1)) := by
  conv_lhs => rw [← List.take_append_drop i (removeSwap l i),
    removeSwap_take h hne]
  exact List.Perm.append_left _ (removeSwap_drop_perm h hne)

theorem removeSwap_subset {l : List Move} {i : Nat} (h : i < l.length)
    (hne : l ≠ []) {m : Move} (hm : m ∈ removeSwap l i) : m ∈ l := by
  have := (removeSwap_perm h hne).mem_iff.mp hm
  rw [List.mem_append] at this
  rcases this with h' | h'
  · exact List.mem_of_mem_take h'
  · exact List.mem_of_mem_drop h'

/-! ### Characterization of the legality-filter loop -/

theorem filterLoop_spec {c : Color} {b : Board} (fuel : Nat) :
    ∀ (i : Nat) (l : List Move),
      (∀ m ∈ l, Coherent c m b) → l.length - i < fuel →
      (filterLoop c fuel i l b).2 = b ∧
      List.Perm (filterLoop c fuel i l b).1
        (l.take i ++ (l.drop i).filter (fun m => !(inCheckAfter c b m))) := by
  induction fuel with
  | zero =>
    intro i l _ hfuel
    omega
  | succ fuel ih =>
    intro i l hcoh hfuel
    by_cases hi : i < l.length
    · have hget : l.getD i dummyMove = l[i] := by
        rw [List.getD_eq_getElem?_getD, List.getElem?_eq_getElem hi]
        rfl
      have hm0 : l.getD i dummyMove ∈ l := by
        rw [hget]
        exact List.getElem_mem hi
      have hru : (b.move c (l.getD i dummyMove)).undo c (l.getD i dummyMove)
          = b := move_undo c _ b (hcoh _ hm0)
      have hne : l ≠ [] := by
        intro h
        rw [h] at hi
        simp at hi
      simp only [filterLoop]
      rw [if_pos hi]
      by_cases hchk : (b.move c (l.getD i dummyMove)).isCheck c
          (generate_attacks (switchColor c) (b.move c (l.getD i dummyMove)))
          = true
      · rw [if_pos hchk, hru]
        have hcoh' : ∀ m ∈ removeSwap l i, Coherent c m b :=
          fun m hm => hcoh m (removeSwap_subset hi hne hm)
        have hfuel' : (removeSwap l i).length - i < fuel := by
          rw [removeSwap_length]
          omega
        obtain ⟨hb', hperm⟩ := ih i (removeSwap l i) hcoh' hfuel'
        refine ⟨hb', hperm.trans ?_⟩
        rw [removeSwap_take hi hne]
        apply List.Perm.append_left
        refine ((removeSwap_drop_perm hi hne).filter _).trans ?_
        rw [List.drop_eq_getElem_cons hi, List.filter_cons]
        have hPm0 : (!(inCheckAfter c b (l[i]))) = false := by
          rw [← hget, inCheckAfter]
          simp only [hchk]
          rfl
        rw [hPm0]
        simp
      · rw [if_neg hchk, hru]
        have hfuel' : l.length - (i + 1) < fuel := by omega
        obtain ⟨hb', hperm⟩ := ih (i + 1) l hcoh hfuel'
        refine ⟨hb', hperm.trans ?_⟩
        have hPm0 : (!(inCheckAfter c b (l[i]))) = true := by
          rw [← hget, inCheckAfter]
          simp only [Bool.not_eq_true']
          revert hchk
          cases (b.move c (l.getD i dummyMove)).isCheck c
            (generate_attacks (switchColor c)
              (b.move c (l.getD i dummyMove))) <;> simp
        conv_rhs => rw [List.drop_eq_getElem_cons hi, List.filter_cons, hPm0]
        have heq : List.take (i + 1) l = List.take i l ++ [l[i]] := by
          rw [List.take_succ, List.getElem?_eq_getElem hi]
          rfl
        rw [heq, List.append_assoc, List.singleton_append]
        exact List.Perm.refl _
    · simp only [filterLoop]
      rw [if_neg hi]
      refine ⟨rfl, ?_⟩
      rw [List.drop_of_length_le (by omega), List.take_of_length_le (by omega)]
      simp

/-- Characterization of `generate_moves`: under coherence of the pseudolegal
list, the board comes back unchanged, the returned list is a permutation of
the pseudolegal moves that survive the check filter, and the returned count
is the resulting list's size. -/
theorem generate_moves_spec {c : Color} {l0 : List Move} {b : Board}
    (hcoh : ∀ m ∈ (pseudolegal_moves c l0 b).2, Coherent c m b) :
    (generate_moves c l0 b).2.2 = b ∧
    List.Perm (generate_moves c l0 b).2.1
      ((pseudolegal_moves c l0 b).2.filter (fun m => !(inCheckAfter c b m))) ∧
    (generate_moves c l0 b).1 = (generate_moves c l0 b).2.1.length := by
  by_cases hz : ((pseudolegal_moves c l0 b).2).length = 0
  · have hnil : (pseudolegal_moves c l0 b).2 = [] :=
      List.eq_nil_of_length_eq_zero hz
    rw [generate_moves, if_pos hz]
    rw [hnil]
    exact ⟨rfl, List.Perm.refl _, rfl⟩
  · rw [generate_moves, if_neg hz]
    obtain ⟨hb', hperm⟩ := filterLoop_spec
      (((pseudolegal_moves c l0 b).2).length + 1) 0
      ((pseudolegal_moves c l0 b).2) hcoh (by omega)
    refine ⟨hb', ?_, rfl⟩
    refine hperm.trans ?_
    rw [List.take_zero, List.drop_zero, List.nil_append]

/-! ### Reachability and the claims infrastructure -/

theorem pseudolegal_coherent {c : Color} {b : Board} (hWF : WF c b) :
    ∀ m ∈ (pseudolegal_moves c [] b).2, Coherent c m b := by
  intro m hm
  rcases pseudolegal_facts hWF hm with h | h
  · exact absurd h (List.not_mem_nil m)
  · exact coherent_of_facts hWF h

theorem generate_moves_mem {c : Color} {b : Board} {m : Move}
    (hWF : WF c b) :
    m ∈ (generate_moves c [] b).2.1 ↔
      (m ∈ (pseudolegal_moves c [] b).2 ∧ inCheckAfter c b m = false) := by
  obtain ⟨-, hperm, -⟩ := generate_moves_spec (pseudolegal_coherent hWF)
  rw [hperm.mem_iff, List.mem_filter]
  simp [Bool.not_eq_true']

theorem generate_moves_MoveFacts {c : Color} {b : Board} {m : Move}
    (hWF : WF c b) (hm : m ∈ (generate_moves c [] b).2.1) :
    MoveFacts c b m := by
  rcases pseudolegal_facts hWF ((generate_moves_mem hWF).mp hm).1 with h | h
  · exact absurd h (List.not_mem_nil m)
  · exact h

theorem WF_start : WF Color.white startBoard :=
  ⟨by unfold bbBound; decide, by unfold bbBound; decide, by decide,
   by decide, by decide,
   ⟨fun h => by decide, fun h => by decide, fun h => by decide,
    fun h => by decide⟩,
   by unfold epOk; decide, by unfold planesDisjoint; decide,
   by unfold planesDisjoint; decide⟩

/-- Every reachable position satisfies the board invariants: reachability
starts at the well-formed starting position and `WF_move` is preserved by
every generator-emitted move. -/
theorem Reachable_WF {c : Color} {b : Board} (h : Reachable c b) :
    WF c b := by
  induction h with
  | start => exact WF_start
  | step hr hm ih => exact WF_move ih (generate_moves_MoveFacts ih hm)

/-! ### Restoration of the board by perft -/

theorem perft_board : ∀ (d : Nat) (c : Color) (b : Board), WF c b →
    (perft c d b).2 = b := by
  intro d
  induction d using Nat.strong_induction_on with
  | _ d ih =>
    match d with
    | 0 =>
      intro c b hWF
      exact (generate_moves_spec (pseudolegal_coherent hWF)).1
    | 1 =>
      intro c b hWF
      exact (generate_moves_spec (pseudolegal_coherent hWF)).1
    | d + 2 =>
      intro c b hWF
      have hspec := @generate_moves_spec c [] b (pseudolegal_coherent hWF)
      have hmono : ∀ (l : List Move),
          (∀ m ∈ l, m ∈ (generate_moves c [] b).2.1) →
          ∀ acc : Nat × Board, acc.2 = b →
          (l.foldl (fun acc m =>
            (acc.1 + (perft (switchColor c) (d + 1) (acc.2.move c m)).1,
             (perft (switchColor c) (d + 1) (acc.2.move c m)).2.undo c m))
            acc).2 = b := by
        intro l
        induction l with
        | nil =>
          intro _ acc hacc
          exact hacc
        | cons m ms ihl =>
          intro hsub acc hacc
          rw [List.foldl_cons]
          apply ihl (fun x hx => hsub x (List.mem_cons_of_mem _ hx))
          have hm := hsub m (List.mem_cons_self _ _)
          have hMF : MoveFacts c b m := generate_moves_MoveFacts hWF hm
          have hWF' : WF (switchColor c) (b.move c m) := WF_move hWF hMF
          show (perft (switchColor c) (d + 1) (acc.2.move c m)).2.undo c m = b
          rw [hacc, ih (d + 1) (by omega) (switchColor c) (b.move c m) hWF']
          exact move_undo c m b (coherent_of_facts hWF hMF)
      simp only [perft]
      exact hmono _ (fun m hm => hm) (0, (generate_moves c [] b).2.2) hspec.1

theorem pseudolegal_append {c : Color} {l0 : List Move} {b : Board} :
    (pseudolegal_moves c l0 b).2 = l0 ++ (pseudolegal_moves c [] b).2 := by
  by_cases hk : b.getKing c = 0
  · simp [pseudolegal_moves, hk]
  · simp [pseudolegal_moves, hk, List.append_assoc]

theorem pseudolegal_size {c : Color} {l0 : List Move} {b : Board}
    (hk : ¬ b.getKing c = 0) :
    (pseudolegal_moves c l0 b).1 = (pseudolegal_moves c l0 b).2.length := by
  rw [pseudolegal_moves, if_neg hk]

theorem pseudolegal_zero {c : Color} {l0 : List Move} {b : Board}
    (hk : b.getKing c = 0) : (pseudolegal_moves c l0 b).1 = 0 := by
  rw [pseudolegal_moves, if_pos hk]

theorem coherent_all {c : Color} {l0 : List Move} {b : Board}
    (hWF : WF c b) (hcoh0 : ∀ m ∈ l0, Coherent c m b) :
    ∀ m ∈ (pseudolegal_moves c l0 b).2, Coherent c m b := by
  intro m hm
  rcases pseudolegal_facts hWF hm with h | h
  · exact hcoh0 m h
  · exact coherent_of_facts hWF h

theorem execMain_succ : ∀ k : Nat, execMain (k + 1) = ⟨true, 2⟩ := by
  intro k
  induction k with
  | zero => rfl
  | succ k2 ih =>
    show pseudolegalInitPrologue (execMain (k2 + 1)) = ⟨true, 2⟩
    rw [ih]
    rfl

/-! ## The claims -/

/-- Claim C1: for every well-formed board and color, `generate_moves`
returns exactly the pseudolegal moves that do not leave the mover's own
king attacked after application: a move is in the returned list iff it is
in the pseudolegal list and the trial application (`inCheckAfter`, the
filter loop's test of lines 85–89) leaves the king outside the enemy
attack set. -/
theorem C1_legal_filter {c : Color} {b : Board} (hWF : WF c b) (m : Move) :
    m ∈ (generate_moves c [] b).2.1 ↔
      (m ∈ (pseudolegal_moves c [] b).2 ∧ inCheckAfter c b m = false) :=
  generate_moves_mem hWF

/-- Witness for C1 at the starting position and the knight move b1–a3. -/
theorem C1_witness :
    WF Color.white startBoard ∧
    ((⟨1, 16, PieceType.knight, none, none, MoveFlag.quiet⟩ : Move) ∈
        (generate_moves Color.white [] startBoard).2.1 ↔
      ((⟨1, 16, PieceType.knight, none, none, MoveFlag.quiet⟩ : Move) ∈
          (pseudolegal_moves Color.white [] startBoard).2 ∧
        inCheckAfter Color.white startBoard
          ⟨1, 16, PieceType.knight, none, none, MoveFlag.quiet⟩ = false)) :=
  ⟨WF_start, C1_legal_filter WF_start _⟩

/-- Claim C2: for every move `m` that `generate_moves` emits in a reachable
position, `Board::move(m)` followed by `Board::undo(m)` restores the whole
board — piece bitboards of both colors, castling rights, en-passant target
and Zobrist key included — bit for bit. -/
theorem C2_move_undo {c : Color} {b : Board} {m : Move}
    (hr : Reachable c b) (hm : m ∈ (generate_moves c [] b).2.1) :
    (b.move c m).undo c m = b := by
  have hWF := Reachable_WF hr
  exact move_undo c m b
    (coherent_of_facts hWF (generate_moves_MoveFacts hWF hm))

/-- Witness for C2 at the starting position and the knight move b1–a3. -/
theorem C2_witness :
    Reachable Color.white startBoard ∧
    (⟨1, 16, PieceType.knight, none, none, MoveFlag.quiet⟩ : Move) ∈
      (generate_moves Color.white [] startBoard).2.1 ∧
    (startBoard.move Color.white
        ⟨1, 16, PieceType.knight, none, none, MoveFlag.quiet⟩).undo
      Color.white ⟨1, 16, PieceType.knight, none, none, MoveFlag.quiet⟩ =
      startBoard :=
  ⟨Reachable.start, by decide, C2_move_undo Reachable.start (by decide)⟩

/-- Claim C3, counterexample: on the execution path of `main`,
`initializePrecomputedStuff` runs twice, not at most once — `main.cpp`
line 29 calls it eagerly without setting `initialized_stuff`, so the first
`pseudolegal_moves` call (lines 50–53) runs it again. -/
theorem C3_counterexample : (execMain 1).initCount = 2 := rfl

/-- Claim C3, amended: the eager call of `main` runs the initialization
once, the first generator call repeats it because the flag was never set,
and from then on the guard holds: after any positive number of generator
calls the routine has run exactly twice and the flag is set, so it is
never re-entered again. -/
theorem C3_amended :
    (execMain 0).initCount = 1 ∧
    ∀ n : Nat, 1 ≤ n → execMain n = ⟨true, 2⟩ := by
  refine ⟨rfl, ?_⟩
  intro n hn
  cases n with
  | zero => omega
  | succ k => exact execMain_succ k

/-- Witness for the amended C3 after one generator call. -/
theorem C3_amended_witness :
    1 ≤ 1 ∧ execMain 1 = ⟨true, 2⟩ :=
  ⟨Nat.le_refl 1, C3_amended.2 1 (Nat.le_refl 1)⟩

/-- Claim C4: in a position where the side to move has no king,
`pseudolegal_moves` returns 0 with the list untouched and `generate_moves`
returns 0 with an empty list and the board unchanged; both are total
functions, so no fault occurs. -/
theorem C4_kingless {c : Color} {b : Board} (hk : b.getKing c = 0) :
    pseudolegal_moves c [] b = (0, []) ∧
    generate_moves c [] b = (0, [], b) := by
  have h1 : pseudolegal_moves c [] b = (0, []) := by
    rw [pseudolegal_moves, if_pos hk]
  refine ⟨h1, ?_⟩
  rw [generate_moves, h1]
  rfl

/-- Witness for C4 on the empty board. -/
theorem C4_witness :
    emptyBoard.getKing Color.white = 0 ∧
    (pseudolegal_moves Color.white [] emptyBoard = (0, []) ∧
      generate_moves Color.white [] emptyBoard = (0, [], emptyBoard)) :=
  ⟨rfl, C4_kingless rfl⟩

/-- Claim C5: for every well-formed board and every depth at most 1,
`perft` hits its explicit base case: it returns exactly the pair built
from one `generate_moves` call — the legal-move count (the length of the
filtered pseudolegal list) and the restored board — and performs no
recursive call. -/
theorem C5_perft_base {c : Color} {b : Board} {d : Nat}
    (hd : d ≤ 1) (hWF : WF c b) :
    perft c d b = ((generate_moves c [] b).2.1.length,
      (generate_moves c [] b).2.2) ∧
    (perft c d b).1 = ((pseudolegal_moves c [] b).2.filter
      (fun m => !(inCheckAfter c b m))).length := by
  have hspec := @generate_moves_spec c [] b (pseudolegal_coherent hWF)
  have hbase : perft c d b = ((generate_moves c [] b).2.1.length,
      (generate_moves c [] b).2.2) := by
    have hd' : d = 0 ∨ d = 1 := by omega
    rcases hd' with h | h <;> subst h <;> rfl
  refine ⟨hbase, ?_⟩
  rw [hbase]
  exact hspec.2.1.length_eq

/-- Witness for C5 at depth 1 from the starting position. -/
theorem C5_witness :
    (1 : Nat) ≤ 1 ∧ WF Color.white startBoard ∧
    (perft Color.white 1 startBoard =
        ((generate_moves Color.white [] startBoard).2.1.length,
         (generate_moves Color.white [] startBoard).2.2) ∧
      (perft Color.white 1 startBoard).1 =
        ((pseudolegal_moves Color.white [] startBoard).2.filter
          (fun m => !(inCheckAfter Color.white startBoard m))).length) :=
  ⟨Nat.le_refl 1, WF_start, C5_perft_base (Nat.le_refl 1) WF_start⟩

/-- Claim C6: for every well-formed board and every depth, `perft` returns
the board in its exact pre-call state — every move applied during the
traversal has been undone. -/
theorem C6_perft_restore {c : Color} {b : Board} (hWF : WF c b) (d : Nat) :
    (perft c d b).2 = b :=
  perft_board d c b hWF

/-- Witness for C6 at depth 3 from the starting position. -/
theorem C6_witness :
    WF Color.white startBoard ∧
    (perft Color.white 3 startBoard).2 = startBoard :=
  ⟨WF_start, C6_perft_restore WF_start 3⟩

/-- Claim C7: the legality filter undoes every trial application before
considering the next move, so `generate_moves` hands back the board in its
entry state, for any caller list whose entries are coherent with the
board (the fresh empty list of every call site in particular). -/
theorem C7_filter_restores {c : Color} {l0 : List Move} {b : Board}
    (hWF : WF c b) (hcoh0 : ∀ m ∈ l0, Coherent c m b) :
    (generate_moves c l0 b).2.2 = b :=
  (generate_moves_spec (coherent_all hWF hcoh0)).1

/-- Witness for C7 with the empty caller list at the starting position. -/
theorem C7_witness :
    WF Color.white startBoard ∧
    (∀ m ∈ ([] : List Move), Coherent Color.white m startBoard) ∧
    (generate_moves Color.white [] startBoard).2.2 = startBoard :=
  ⟨WF_start, by simp, C7_filter_restores WF_start (by simp)⟩

/-- Claim C9: calling `generate_moves` twice with fresh empty lists — the
second call on the board the first call hands back — yields the same moves
up to order, because the first call restores the board exactly. -/
theorem C9_idempotent {c : Color} {b : Board} (hWF : WF c b) :
    List.Perm
      (generate_moves c [] ((generate_moves c [] b).2.2)).2.1
      ((generate_moves c [] b).2.1) := by
  rw [(generate_moves_spec (pseudolegal_coherent hWF)).1]

/-- Witness for C9 at the starting position. -/
theorem C9_witness :
    WF Color.white startBoard ∧
    List.Perm
      (generate_moves Color.white []
        ((generate_moves Color.white [] startBoard).2.2)).2.1
      ((generate_moves Color.white [] startBoard).2.1) :=
  ⟨WF_start, C9_idempotent WF_start⟩

/-- Claim C10, counterexample: on a board whose side to move has no king,
`pseudolegal_moves` returns 0 even when the caller's list already holds an
entry, so its return value is not the total size of the list. -/
theorem C10_counterexample :
    (pseudolegal_moves Color.white [dummyMove] emptyBoard).1 = 0 ∧
    (pseudolegal_moves Color.white [dummyMove] emptyBoard).2.length = 1 :=
  ⟨rfl, rfl⟩

/-- Claim C10, amended: both functions append to the caller's list without
clearing it; when a king is present `pseudolegal_moves` returns the total
size of the list including pre-existing entries, but on a kingless board
it returns 0 regardless of those entries; `generate_moves` subjects the
pre-existing entries to the same legality filter as the generated ones and
returns the size of the filtered list. -/
theorem C10_amended {c : Color} {l0 : List Move} {b : Board}
    (hWF : WF c b) (hcoh0 : ∀ m ∈ l0, Coherent c m b) :
    (pseudolegal_moves c l0 b).2 = l0 ++ (pseudolegal_moves c [] b).2 ∧
    (¬ b.getKing c = 0 →
      (pseudolegal_moves c l0 b).1 = (pseudolegal_moves c l0 b).2.length) ∧
    (b.getKing c = 0 → (pseudolegal_moves c l0 b).1 = 0) ∧
    (generate_moves c l0 b).1 = (generate_moves c l0 b).2.1.length ∧
    List.Perm (generate_moves c l0 b).2.1
      ((pseudolegal_moves c l0 b).2.filter
        (fun m => !(inCheckAfter c b m))) := by
  obtain ⟨hb', hperm, hlen⟩ := generate_moves_spec (coherent_all hWF hcoh0)
  exact ⟨pseudolegal_append, fun hk => pseudolegal_size hk,
    fun hk => pseudolegal_zero hk, hlen, hperm⟩

/-- Witness for the amended C10 with the empty caller list at the starting
position. -/
theorem C10_amended_witness :
    WF Color.white startBoard ∧
    (∀ m ∈ ([] : List Move), Coherent Color.white m startBoard) ∧
    ((pseudolegal_moves Color.white [] startBoard).2 =
        [] ++ (pseudolegal_moves Color.white [] startBoard).2 ∧
      (¬ startBoard.getKing Color.white = 0 →
        (pseudolegal_moves Color.white [] startBoard).1 =
          (pseudolegal_moves Color.white [] startBoard).2.length) ∧
      (startBoard.getKing Color.white = 0 →
        (pseudolegal_moves Color.white [] startBoard).1 = 0) ∧
      (generate_moves Color.white [] startBoard).1 =
        (generate_moves Color.white [] startBoard).2.1.length ∧
      List.Perm (generate_moves Color.white [] startBoard).2.1
        ((pseudolegal_moves Color.white [] startBoard).2.filter
          (fun m => !(inCheckAfter Color.white startBoard m)))) :=
  ⟨WF_start, by simp, C10_amended WF_start (by simp)⟩
